import Mathlib

/-!
Shallow embedding of the PDF translation pipeline of `translaterapp.py`
(class `PDFTranslator`): text-unit extraction and block merging,
paragraph/sentence chunked translation with retry and dictionary fallback,
font-size adaptation, text wrapping, and the per-unit page-rewrite step.

Texts are modelled as `List Char`, numeric layout quantities as `ℚ`.
Python whitespace (`str.strip`, `str.split`, regex `\s`) is modelled over the
ASCII whitespace characters, and `str.isdigit` over the ASCII digits; the
inputs appearing in the properties below use no other characters.
The translation provider (`deep_translator.GoogleTranslator.translate`) is an
injected function `List Char → Option (List Char)`; `none` models a raised
exception, which the source catches per attempt.  All embedded functions are
total, mirroring the fact that the method's `try/except` structure converts
every provider failure into the retry/fallback path.
-/

set_option maxRecDepth 20000

/-- ASCII whitespace, modelling Python's `\s` / `str.strip` on the texts
considered here. -/
def isSpace (c : Char) : Bool :=
  c = ' ' || c = '\t' || c = '\n' || c = '\r' || c = '\x0b' || c = '\x0c'

/-- Python `str.strip()`: drop leading and trailing whitespace. -/
def pyStrip (l : List Char) : List Char :=
  ((l.dropWhile isSpace).reverse.dropWhile isSpace).reverse

/-- Python `str.isdigit()` (ASCII): non-empty and all digits. -/
def pyIsDigit (l : List Char) : Bool :=
  !l.isEmpty && l.all (·.isDigit)

/-- Worker for `pyWords`, accumulating the current word reversed. -/
def wordsAux : List Char → List Char → List (List Char)
  | [], acc => if acc.isEmpty then [] else [acc.reverse]
  | c :: rest, acc =>
    if isSpace c then
      if acc.isEmpty then wordsAux rest [] else acc.reverse :: wordsAux rest []
    else wordsAux rest (c :: acc)

/-- Python `str.split()` with no argument: whitespace-delimited words,
empty pieces dropped. -/
def pyWords (l : List Char) : List (List Char) :=
  wordsAux l []

/-- `sep.join(pieces)` for a fixed separator. -/
def joinSep (sep : List Char) : List (List Char) → List Char
  | [] => []
  | [p] => p
  | p :: q :: rest => p ++ sep ++ joinSep sep (q :: rest)

/-- `" ".join(pieces)`. -/
def joinSpace : List (List Char) → List Char :=
  joinSep [' ']

/-- `"\n\n".join(pieces)`. -/
def joinNl2 : List (List Char) → List Char :=
  joinSep ['\n', '\n']

/-- Sentence-final punctuation of the regex `(?<=[.!?])\s+`. -/
def sentEnd (c : Char) : Bool :=
  c = '.' || c = '!' || c = '?'

/-- Does the list start with a whitespace character? -/
def headIsSpace : List Char → Bool
  | [] => false
  | c :: _ => isSpace c

/-- Worker for `splitSentences`.  `acc` is the current piece reversed;
`skipping` is true while consuming the whitespace run of a split point
(then `acc = []`).  One character is consumed per step. -/
def splitSentGo : List Char → Bool → List Char → List (List Char)
  | [], _, acc => [acc.reverse]
  | c :: rest, skipping, acc =>
    if skipping && isSpace c then splitSentGo rest true []
    else if sentEnd c && headIsSpace rest then
      (acc.reverse ++ [c]) :: splitSentGo rest true []
    else splitSentGo rest false (c :: acc)

/-- `re.split(r'(?<=[.!?])\s+', text)`: a split point is a maximal whitespace
run preceded by `.`, `!` or `?`. -/
def splitSentences (text : List Char) : List (List Char) :=
  splitSentGo text false []

/-- Worker for `splitParagraphs`.  `acc` is the current piece reversed.
`some run` records, reversed, a whitespace run opened by a `'\n'` (a potential
`\n\s*\n` separator); the greedy match with backtracking ends at the last
`'\n'` of the maximal run, so the run is resolved when it ends: with a second
`'\n'` present the piece closes and the run's tail past its last `'\n'`
starts the next piece, otherwise the run rejoins the current piece. -/
def splitParasGo : List Char → List Char → Option (List Char) → List (List Char)
  | [], acc, none => [acc.reverse]
  | [], acc, some run =>
    if 2 ≤ run.count '\n' then [acc.reverse, (run.takeWhile (· ≠ '\n')).reverse]
    else [(run ++ acc).reverse]
  | c :: rest, acc, none =>
    if c = '\n' then splitParasGo rest acc (some ['\n'])
    else splitParasGo rest (c :: acc) none
  | c :: rest, acc, some run =>
    if isSpace c then splitParasGo rest acc (some (c :: run))
    else if 2 ≤ run.count '\n' then
      acc.reverse :: splitParasGo rest (c :: run.takeWhile (· ≠ '\n')) none
    else splitParasGo rest (c :: (run ++ acc)) none

/-- `re.split(r'\n\s*\n', text)`. -/
def splitParagraphs (text : List Char) : List (List Char) :=
  splitParasGo text [] none

/-- The cleaned paragraph list of `translate_text`:
`[p.strip() for p in re.split(r'\n\s*\n', text) if p.strip()]`. -/
def paragraphsOf (text : List Char) : List (List Char) :=
  ((splitParagraphs text).map pyStrip).filter (· ≠ [])

/-! ## Chunked translation (`PDFTranslator.translate_text` and
`PDFTranslator._fallback_dictionary_translation`) -/

/-- The injected translation provider: `none` models a provider call that
raises (network/provider failure), `some t` a returned translation. -/
def Provider : Type :=
  List Char → Option (List Char)

/-- A provider that fails on every call. -/
def failingProvider : Provider :=
  fun _ => none

/-- A provider that returns its input unchanged. -/
def identityProvider : Provider :=
  fun t => some t

/-- A word character of the regex `\b` boundary (`[A-Za-z0-9_]`; the
dictionary entries below are plain ASCII words). -/
def isWordChar (c : Char) : Bool :=
  c.isAlpha || c.isDigit || c = '_'

/-- Case-insensitive prefix match: if `pat` (case-insensitively) starts the
text, return the rest of the text. -/
def matchCI : List Char → List Char → Option (List Char)
  | [], l => some l
  | _ :: _, [] => none
  | p :: ps, c :: cs => if p.toLower = c.toLower then matchCI ps cs else none

/-- No word character immediately after a match (trailing `\b`). -/
def boundaryAfter : List Char → Bool
  | [] => true
  | c :: _ => !isWordChar c

/-- Worker for `subWord`: one pass of
`re.compile(r'\b' + re.escape(eng) + r'\b', re.IGNORECASE).sub(trans, text)`.
`prevW` is whether the previous (original) character is a word character;
the fuel starts at the text length and bounds the recursion (each step
consumes at least one character, so it never runs out). -/
def subWordAux (pat rep : List Char) : Nat → Bool → List Char → List Char
  | _, _, [] => []
  | 0, _, l => l
  | fuel + 1, prevW, c :: rest =>
    match matchCI pat (c :: rest) with
    | some rest2 =>
      if !prevW && boundaryAfter rest2 then
        rep ++ subWordAux pat rep fuel
          (match pat.getLast? with
           | some d => isWordChar d
           | none => prevW) rest2
      else c :: subWordAux pat rep fuel (isWordChar c) rest
    | none => c :: subWordAux pat rep fuel (isWordChar c) rest

/-- Case-insensitive whole-word replacement of `pat` by `rep`. -/
def subWord (pat rep text : List Char) : List Char :=
  subWordAux pat rep text.length false text

/-- The static fallback dictionaries from `__init__` (the `"es"` table, in
insertion order; the third replacement carries the source file's literal
bytes). -/
def translationDictionaries : List (String × List (List Char × List Char)) :=
  [("es",
    [("Hello".data, "Hola".data),
     ("Document".data, "Documento".data),
     ("Translation".data, "Traducci√≥n".data),
     ("File".data, "Archivo".data),
     ("Text".data, "Texto".data),
     ("Language".data, "Idioma".data)])]

/-- `PDFTranslator._fallback_dictionary_translation`: apply every dictionary
entry of the target language in order; an unsupported language returns the
text unchanged. -/
def fallbackDict (text : List Char) (target : String) : List Char :=
  match (translationDictionaries.filter (fun e => e.1 = target)).head? with
  | none => text
  | some e => e.2.foldl (fun t p => subWord p.1 p.2 t) text

/-- The fallback step after all retries fail: the substituted text when it
differs from the input, otherwise the original text. -/
def fallbackOr (text : List Char) (target : String) : List Char :=
  if fallbackDict text target ≠ text then fallbackDict text target else text

/-- Worker for `buildChunks`: greedy packing of sentences into chunks;
`cur` is the open chunk's sentences, `cnt` their total length. -/
def buildChunksAux : List (List Char) → List (List Char) → Nat → List (List Char)
  | [], cur, _ => if cur = [] then [] else [joinSpace cur]
  | s :: rest, cur, cnt =>
    if 4000 < cnt + s.length ∧ cur ≠ [] then
      joinSpace cur :: buildChunksAux rest [s] s.length
    else buildChunksAux rest (cur ++ [s]) (cnt + s.length)

/-- The chunking of `translate_text` for texts over 4000 characters:
sentences greedily packed and space-joined. -/
def buildChunks (sentences : List (List Char)) : List (List Char) :=
  buildChunksAux sentences [] 0

/-- The per-chunk provider loop: blank chunks are skipped; a failing call
aborts the attempt.  Returns the translated chunks (if all succeeded) and
the list of texts passed to the provider. -/
def translateChunks (p : Provider) :
    List (List Char) → Option (List (List Char)) × List (List Char)
  | [] => (some [], [])
  | c :: rest =>
    if pyStrip c = [] then translateChunks p rest
    else
      match p c with
      | none => (none, [c])
      | some t =>
        match translateChunks p rest with
        | (some ts, cs) => (some (t :: ts), c :: cs)
        | (none, cs) => (none, c :: cs)

/-- One `try` attempt of `translate_text`: texts over 4000 characters are
chunked at sentence boundaries and the chunk translations space-joined,
shorter texts go to the provider whole.  Returns the result (`none` if the
attempt raised) and the texts passed to the provider. -/
def attemptTranslate (p : Provider) (text : List Char) :
    Option (List Char) × List (List Char) :=
  if 4000 < text.length then
    match translateChunks p (buildChunks (splitSentences text)) with
    | (some ts, cs) => (some (joinSpace ts), cs)
    | (none, cs) => (none, cs)
  else
    match p text with
    | none => (none, [text])
    | some t => (some t, [text])

/-- The retry loop: up to `retries` attempts, stopping at the first
success; provider calls of all attempts are recorded. -/
def retryLoop (p : Provider) (text : List Char) : Nat → Option (List Char) × List (List Char)
  | 0 => (none, [])
  | n + 1 =>
    match attemptTranslate p text with
    | (some r, cs) => (some r, cs)
    | (none, cs) =>
      match retryLoop p text n with
      | (r, cs2) => (r, cs ++ cs2)

/-- `translate_text` after the paragraph stage: retry loop, then dictionary
fallback, then the original text. -/
def translateCore (p : Provider) (text : List Char) (target : String) (retries : Nat) :
    List Char × List (List Char) :=
  match retryLoop p text retries with
  | (some r, cs) => (r, cs)
  | (none, cs) => (fallbackOr text target, cs)

/-- The recursive call `translate_text(paragraph, ..., preserve_paragraphs=False)`:
blank input returns `""`, otherwise the core translation. -/
def translateNoPar (p : Provider) (text : List Char) (target : String) (retries : Nat) :
    List Char × List (List Char) :=
  if pyStrip text = [] then ([], []) else translateCore p text target retries

/-- The per-paragraph step of the multi-paragraph branch: paragraphs shorter
than 3 characters or purely numeric pass through with no provider call. -/
def translatePara (p : Provider) (target : String) (retries : Nat) (q : List Char) :
    List Char × List (List Char) :=
  if q.length < 3 || pyIsDigit q then (q, []) else translateNoPar p q target retries

/-- `PDFTranslator.translate_text(text, target, retries, preserve_paragraphs)`,
instrumented: returns the translation together with the list of texts passed
to the provider. -/
def translateText (p : Provider) (text : List Char) (target : String) (retries : Nat)
    (preserve : Bool) : List Char × List (List Char) :=
  if pyStrip text = [] then ([], [])
  else if preserve then
    let paras := paragraphsOf text
    if paras = [] then ([], [])
    else if 1 < paras.length then
      let rs := paras.map (translatePara p target retries)
      (joinNl2 (rs.map Prod.fst), (rs.map Prod.snd).flatten)
    else translateCore p text target retries
  else translateCore p text target retries

example : subWord "Hello".data "Hola".data "Hello".data = "Hola".data := by decide
example : fallbackDict "Hello".data "es" = "Hola".data := by decide
example : fallbackDict "OthelloX".data "es" = "OthelloX".data := by decide
example : fallbackDict "say hello!".data "es" = "say Hola!".data := by decide
example : (translateText failingProvider "Hello".data "es" 3 true).1 = "Hola".data := by
  decide
example : (translateText failingProvider "A.\n \nB.".data "es" 3 true).1
    = "A.\n\nB.".data := by decide
example : translateText identityProvider "A.\n\nB.".data "es" 3 true
    = ("A.\n\nB.".data, []) := by decide
example : buildChunks ["ab".data, "cd".data] = ["ab cd".data] := by decide

example : pyStrip "  ab c  ".data = "ab c".data := by decide

/-! ## Block extraction and merging (`PDFTranslator.analyze_pdf` and
`PDFTranslator._merge_related_blocks`) -/

/-- A bounding box `(x0, y0, x1, y1)` in layout units. -/
structure Rect where
  x0 : ℚ
  y0 : ℚ
  x1 : ℚ
  y1 : ℚ
deriving DecidableEq, Repr

/-- `fitz.Rect.width` (boxes here are normalized, `x0 ≤ x1`). -/
def Rect.width (r : Rect) : ℚ :=
  r.x1 - r.x0

/-- `fitz.Rect.height`. -/
def Rect.height (r : Rect) : ℚ :=
  r.y1 - r.y0

/-- Coordinate-wise union of two boxes, as computed in the merge step. -/
def rectUnion (a b : Rect) : Rect :=
  ⟨min a.x0 b.x0, min a.y0 b.y0, max a.x1 b.x1, max a.y1 b.y1⟩

/-- A positioned text run as reported by the document model (the `color`
and `font` entries of the source dictionaries are carried through unused by
every property below and are omitted). -/
structure Span where
  text : List Char
  bbox : Rect
  size : ℚ
deriving DecidableEq, Repr

/-- A line of spans. -/
structure Line where
  spans : List Span
deriving DecidableEq, Repr

/-- A raw page block: `type` (0 = text), `bbox`, and the `lines` key when
present. -/
structure Block where
  btype : ℤ
  bbox : Rect
  lines : Option (List Line)
deriving DecidableEq, Repr

/-- Is the block skipped by the merge pass
(`block.get("type", 0) != 0 or "lines" not in block`)? -/
def Block.nonText (b : Block) : Bool :=
  b.btype ≠ 0 || b.lines.isNone

/-- Merging a block into the accumulator: lines appended (when the
accumulator has a `lines` key) and bbox replaced by the union. -/
def joinBlocks (cb b : Block) : Block :=
  { cb with
    lines := match cb.lines with
             | none => none
             | some ls => some (ls ++ b.lines.getD [])
    bbox := rectUnion cb.bbox b.bbox }

/-- State of the merge pass: emitted blocks, the current accumulator, and
`current_y` (initially 0). -/
structure MergeSt where
  merged : List Block
  cur : Option Block
  curY : ℚ
deriving DecidableEq, Repr

/-- One step of the merge pass over the sorted blocks. -/
def mergeStep (st : MergeSt) (b : Block) : MergeSt :=
  if b.nonText then { st with merged := st.merged ++ [b] }
  else
    match st.cur with
    | none => ⟨st.merged, some b, b.bbox.y0⟩
    | some cb =>
      if 15 < |b.bbox.y0 - st.curY| then
        ⟨st.merged ++ [cb], some b, b.bbox.y0⟩
      else
        let nb := joinBlocks cb b
        ⟨st.merged, some nb, nb.bbox.y1⟩

/-- Stable insertion sort by top-edge `y0` ascending, modelling
`sorted(blocks, key=lambda b: b.get("bbox", [0,0,0,0])[1])`. -/
def insertByY (b : Block) : List Block → List Block
  | [] => [b]
  | a :: rest => if b.bbox.y0 ≤ a.bbox.y0 then b :: a :: rest else a :: insertByY b rest

/-- Sort blocks by top-edge `y0` ascending (stable). -/
def sortByY (l : List Block) : List Block :=
  l.foldr insertByY []

/-- `PDFTranslator._merge_related_blocks`. -/
def mergeRelatedBlocks (blocks : List Block) : List Block :=
  if blocks = [] then []
  else
    let st := (sortByY blocks).foldl mergeStep ⟨[], none, 0⟩
    match st.cur with
    | none => st.merged
    | some cb => st.merged ++ [cb]

/-! ## Text-unit construction (`PDFTranslator.analyze_pdf`) -/

/-- A merged text unit as stored in `text_blocks` (the per-page geometry
fields are carried through unused by every property below and are omitted). -/
structure TextUnit where
  text : List Char
  spans : List Span
  bbox : Rect
  btype : ℤ
deriving DecidableEq, Repr

/-- The spans of a block whose text is not empty or whitespace-only, in
document order. -/
def nonBlankSpans (b : Block) : List Span :=
  ((b.lines.getD []).flatMap Line.spans).filter (fun s => pyStrip s.text ≠ [])

/-- The bbox accumulation of `analyze_pdf`: minima start at `float('inf')`
(hence equal the true minima once a span is seen), maxima start at `0`.
The empty case is unreachable: a unit is only emitted when its text is
non-blank, which requires at least one non-blank span. -/
def accBBox : List Span → Rect
  | [] => ⟨0, 0, 0, 0⟩
  | s :: rest =>
    rest.foldl
      (fun r t => ⟨min r.x0 t.bbox.x0, min r.y0 t.bbox.y0,
                   max r.x1 t.bbox.x1, max r.y1 t.bbox.y1⟩)
      ⟨s.bbox.x0, s.bbox.y0, max 0 s.bbox.x1, max 0 s.bbox.y1⟩

/-- The coordinate-wise min/max (union) over the spans' bboxes, as the spec
words it ("bbox equals the coordinate-wise min/max over all contained
spans' bboxes"); to be compared with `accBBox`. -/
def specBBox : List Span → Rect
  | [] => ⟨0, 0, 0, 0⟩
  | s :: rest =>
    rest.foldl
      (fun r t => ⟨min r.x0 t.bbox.x0, min r.y0 t.bbox.y0,
                   max r.x1 t.bbox.x1, max r.y1 t.bbox.y1⟩)
      s.bbox

/-- The per-block body of `analyze_pdf`: blocks without a `lines` key are
skipped, span texts are concatenated with a trailing space each and
stripped, and blocks with blank text are dropped. -/
def mkUnit (b : Block) : Option TextUnit :=
  match b.lines with
  | none => none
  | some _ =>
    let sps := nonBlankSpans b
    let raw := (sps.map (fun s => s.text ++ [' '])).flatten
    if pyStrip raw = [] then none
    else some ⟨pyStrip raw, sps, accBBox sps, b.btype⟩

/-- The extractor for one page: merge related blocks, then build the
emitted text units. -/
def extractUnits (blocks : List Block) : List TextUnit :=
  (mergeRelatedBlocks blocks).filterMap mkUnit

example :
    mkUnit ⟨0, ⟨0, 0, 9, 9⟩, some [⟨[⟨"Hi ".data, ⟨1, 2, 3, 4⟩, 12⟩,
      ⟨"  ".data, ⟨0, 0, 9, 9⟩, 12⟩, ⟨"yo".data, ⟨2, 1, 5, 3⟩, 12⟩]⟩]⟩
    = some ⟨"Hi  yo".data, [⟨"Hi ".data, ⟨1, 2, 3, 4⟩, 12⟩,
        ⟨"yo".data, ⟨2, 1, 5, 3⟩, 12⟩], ⟨1, 1, 5, 4⟩, 0⟩ := by decide

/-! ## Font-size adaptation (`PDFTranslator.adjust_font_size`) -/

/-- The language width-factor table of `adjust_font_size`, in insertion
order. -/
def langFactors : List (String × ℚ) :=
  [("zh-CN", 1), ("zh-TW", 1), ("ja", 1), ("ko", 1),
   ("de", 12/10), ("ru", 11/10), ("ar", 11/10), ("default", 6/10)]

/-- The factor-selection loop: the first table entry whose name is not
`"default"` and for which the text has a character with code point over 1000
supplies the factor. -/
def factorLoop (text : List Char) : List (String × ℚ) → ℚ
  | [] => 6/10
  | (lang, f) :: rest =>
    if lang ≠ "default" && text.any (fun c => 1000 < c.toNat) then f
    else factorLoop text rest

/-- The width factor chosen by `adjust_font_size`: the loop runs only when
the text has a character with code point over 127. -/
def chooseFactor (text : List Char) : ℚ :=
  if text.any (fun c => 127 < c.toNat) then factorLoop text langFactors
  else 6/10

/-- `PDFTranslator.adjust_font_size(text, rect_width, original_font_size)`. -/
def adjustFontSize (text : List Char) (rectWidth fontSize : ℚ) : ℚ :=
  let factor := chooseFactor text
  let approxWidth := (text.length : ℚ) * fontSize * factor
  if approxWidth ≤ rectWidth then fontSize
  else max (fontSize * (rectWidth / approxWidth)) (fontSize * (7/10))

/-! ## Text wrapping (`PDFTranslator.calculate_text_wrap`) -/

/-- Python `int()` on a rational: truncation toward zero. -/
def pyInt (q : ℚ) : ℤ :=
  if 0 ≤ q then ⌊q⌋ else ⌈q⌉

/-- State of the greedy packing loop: finished lines, the pieces of the
current line, and `current_count`. -/
structure PackSt where
  lines : List (List Char)
  cur : List (List Char)
  cnt : ℤ
deriving DecidableEq, Repr

/-- Adding one piece (a whole short sentence, or a word of a long one): the
shared `current_count + len + 1 <= chars_per_line` pattern of both loops. -/
def packPiece (cpl : ℤ) (st : PackSt) (piece : List Char) : PackSt :=
  if st.cnt + piece.length + 1 ≤ cpl then
    ⟨st.lines, st.cur ++ [piece], st.cnt + piece.length + 1⟩
  else
    ⟨(if st.cur = [] then st.lines else st.lines ++ [joinSpace st.cur]),
     [piece], piece.length⟩

/-- The inner loop over the words of a sentence longer than a line. -/
def packWords (cpl : ℤ) (st : PackSt) (ws : List (List Char)) : PackSt :=
  ws.foldl (packPiece cpl) st

/-- The outer loop over sentences. -/
def packSents (cpl : ℤ) (st : PackSt) : List (List Char) → PackSt
  | [] => st
  | s :: rest =>
    if (s.length : ℤ) ≤ cpl then packSents cpl (packPiece cpl st s) rest
    else packSents cpl (packWords cpl st (pyWords s)) rest

/-- Flush the open line at the end of the loop. -/
def packFinish (st : PackSt) : List (List Char) :=
  if st.cur = [] then st.lines else st.lines ++ [joinSpace st.cur]

/-- `PDFTranslator.calculate_text_wrap(text, font_size, max_width)`. -/
def calculateTextWrap (text : List Char) (fontSize maxWidth : ℚ) : List (List Char) :=
  let avgCharWidth := fontSize * (6/10)
  let textWidth := (text.length : ℚ) * avgCharWidth
  if textWidth ≤ maxWidth then [text]
  else
    let charsPerLine := pyInt (maxWidth / avgCharWidth)
    packFinish (packSents charsPerLine ⟨[], [], 0⟩ (splitSentences text))

/-! ## The per-unit page-rewrite step (`PDFTranslator.translate_pdf`) -/

/-- The observable document-model operations performed for one text unit. -/
inductive UnitAction where
  | translateCall (text : List Char)
  | redact (region : Rect)
  | insertLine (pos : ℚ × ℚ) (line : List Char) (fontSize : ℚ)
deriving DecidableEq, Repr

/-- The letter-class gate
`re.search(r'[a-zA-ZЀ-ӿ؀-ۿ぀-ヿ一-鿿가-힯]', text)`. -/
def isLetterClass (c : Char) : Bool :=
  ('a' ≤ c && c ≤ 'z') || ('A' ≤ c && c ≤ 'Z') ||
  (0x400 ≤ c.toNat && c.toNat ≤ 0x4FF) || (0x600 ≤ c.toNat && c.toNat ≤ 0x6FF) ||
  (0x3040 ≤ c.toNat && c.toNat ≤ 0x30FF) || (0x4E00 ≤ c.toNat && c.toNat ≤ 0x9FFF) ||
  (0xAC00 ≤ c.toNat && c.toNat ≤ 0xD7AF)

/-- The line-insertion loop: each wrapped line is inserted at
`(x0 + 2, y0 + font_size + idx * font_size * 1.3)` when that vertical
position is still within the box. -/
def insertActions (rect : Rect) (fontSize : ℚ) (lines : List (List Char)) : List UnitAction :=
  (List.range lines.length).filterMap (fun idx =>
    match lines.get? idx with
    | none => none
    | some line =>
      let yPos := rect.y0 + fontSize + idx * (fontSize * (13/10))
      if yPos ≤ rect.y1 then some (.insertLine (rect.x0 + 2, yPos) line fontSize)
      else none)

/-- The body of the per-unit loop of `translate_pdf`: the skip gates, then
the translate call, the redaction, and the text insertion. -/
def processUnit (p : Provider) (target : String) (u : TextUnit) : List UnitAction :=
  if u.btype ≠ 0 then []
  else
    let blockText := pyStrip u.text
    if blockText = [] || pyIsDigit blockText || blockText.length < 3 then []
    else if !blockText.any isLetterClass then []
    else
      let rect := u.bbox
      if rect.width < 10 ∨ rect.height < 10 then []
      else
        let translated := (translateText p blockText target 3 true).1
        [.translateCall blockText, .redact rect] ++
        (match u.spans.head? with
         | none => []
         | some span =>
           let adjusted := adjustFontSize translated rect.width span.size
           insertActions rect adjusted (calculateTextWrap translated adjusted rect.width))

example : adjustFontSize "hello".data 100 10 = 10 := by
  simp +decide [adjustFontSize, chooseFactor]
  norm_num
example : adjustFontSize "hello".data 25 10 = 25/3 := by
  simp +decide [adjustFontSize, chooseFactor]
  norm_num
example : chooseFactor "GROẞE".data = 1 := by
  simp +decide [chooseFactor, factorLoop, langFactors]
example : chooseFactor "Größe".data = 6/10 := by
  simp +decide [chooseFactor, factorLoop, langFactors]
example : calculateTextWrap "ab cd".data 10 100 = ["ab cd".data] := by
  simp +decide [calculateTextWrap]
  norm_num
example :
    processUnit identityProvider "es" ⟨"42".data, [], ⟨0, 0, 100, 100⟩, 0⟩ = [] := by
  decide
example :
    processUnit identityProvider "es" ⟨"Hello there".data, [], ⟨0, 0, 5, 100⟩, 0⟩
    = [] := by
  simp +decide [processUnit, Rect.width, Rect.height]
example : pyWords " a  bc ".data = ["a".data, "bc".data] := by decide
example : splitSentences "Hi. There!  Ok".data =
    ["Hi.".data, "There!".data, "Ok".data] := by decide
example : splitParagraphs "A.\n \nB.\nC".data = ["A.".data, "B.\nC".data] := by
  decide
example : paragraphsOf "A.\n\nB.".data = ["A.".data, "B.".data] := by decide

/-! ## Helper lemmas -/

theorem anyGt127_of_anyGt1000 {text : List Char}
    (h : text.any (fun c => 1000 < c.toNat) = true) :
    text.any (fun c => 127 < c.toNat) = true := by
  rcases List.any_eq_true.mp h with ⟨c, hc, hlt⟩
  refine List.any_eq_true.mpr ⟨c, hc, ?_⟩
  simp only [decide_eq_true_eq] at hlt ⊢
  omega

theorem factorLoop_of_any1000 {text : List Char}
    (h : text.any (fun c => 1000 < c.toNat) = true) :
    factorLoop text langFactors = 1 := by
  simp [factorLoop, langFactors, h]

theorem factorLoop_of_not_any1000 {text : List Char}
    (h : text.any (fun c => 1000 < c.toNat) = false) :
    factorLoop text langFactors = 6/10 := by
  simp [factorLoop, langFactors, h]

/-! ## C6 -/

/-- C6 (counterexample): the German-looking text `"GROẞE"` contains the
character `ẞ` (code point 7838 > 1000), yet `adjust_font_size` selects the
width factor 1.0, not the table's German factor 1.2: the selection loop never
consults a language and always breaks at the first table entry. -/
theorem c6_counterexample :
    chooseFactor "GROẞE".data = 1 ∧ ("de", (12/10 : ℚ)) ∈ langFactors ∧
      (1 : ℚ) ≠ 12/10 := by
  refine ⟨?_, by simp [langFactors], by norm_num⟩
  simp +decide [chooseFactor, factorLoop, langFactors]

/-- C6 (amended): the width approximation `len(text) * size * factor` uses
factor 1.0 whenever the text contains a character with code point above 1000
and the default 0.6 otherwise; the per-language factors (1.2 for German, 1.1
for Russian/Arabic) are present in the table but are never selected, since
the loop does not consult the target language and stops at the table's first
entry. -/
theorem c6_factor_selection (text : List Char) :
    chooseFactor text =
      if text.any (fun c => 1000 < c.toNat) = true then 1 else 6/10 := by
  by_cases h : text.any (fun c => 1000 < c.toNat) = true
  · rw [chooseFactor, if_pos (anyGt127_of_anyGt1000 h), factorLoop_of_any1000 h,
      if_pos h]
  · have h0 : text.any (fun c => 1000 < c.toNat) = false :=
      Bool.eq_false_iff.mpr h
    rw [chooseFactor, if_neg h]
    by_cases h127 : text.any (fun c => 127 < c.toNat) = true
    · rw [if_pos h127, factorLoop_of_not_any1000 h0]
    · rw [if_neg h127]

/-! ## C7 -/

/-- C7: for every text, box width ≥ 0 and font size > 0, `adjust_font_size`
returns the original size when the approximated width
`len(text) * size * factor` fits the box, otherwise the original size scaled
by `box_width / approx_width`, floored at 70% of the original size; the
result is never below 70% of the original size. -/
theorem c7_font_floor (text : List Char) (w s : ℚ) (hw : 0 ≤ w) (hs : 0 < s) :
    ((text.length : ℚ) * s * chooseFactor text ≤ w → adjustFontSize text w s = s) ∧
    (w < (text.length : ℚ) * s * chooseFactor text →
      adjustFontSize text w s =
        max (s * (w / ((text.length : ℚ) * s * chooseFactor text))) (s * (7/10))) ∧
    s * (7/10) ≤ adjustFontSize text w s := by
  unfold adjustFontSize
  by_cases hA : (text.length : ℚ) * s * chooseFactor text ≤ w
  · refine ⟨fun _ => by rw [if_pos hA], fun hlt => absurd hA (not_le.mpr hlt), ?_⟩
    rw [if_pos hA]
    nlinarith
  · refine ⟨fun hle => absurd hle hA, fun _ => by rw [if_neg hA], ?_⟩
    rw [if_neg hA]
    exact le_max_right _ _

/-- C7 (witness): at text `"hello"`, box width 100 and font size 10, the
adjusted size is at least 70% of the original. -/
theorem c7_font_floor_witness :
    (10 : ℚ) * (7/10) ≤ adjustFontSize "hello".data 100 10 :=
  (c7_font_floor "hello".data 100 10 (by norm_num) (by norm_num)).2.2

/-! ## C8 -/

theorem processUnit_nil_of_text_gate (p : Provider) (target : String) (u : TextUnit)
    (h : pyStrip u.text = [] ∨ pyIsDigit (pyStrip u.text) = true ∨
      (pyStrip u.text).length < 3 ∨ (pyStrip u.text).any isLetterClass = false) :
    processUnit p target u = [] := by
  unfold processUnit
  by_cases hb : u.btype ≠ 0
  · rw [if_pos hb]
  · rw [if_neg hb]
    rcases h with h | h | h | h
    · simp [h]
    · simp [h]
    · simp [h]
    · by_cases h1 : (pyStrip u.text = [] || pyIsDigit (pyStrip u.text)
          || decide ((pyStrip u.text).length < 3)) = true
      · simp [h1]
      · simp only [h1, if_false]
        simp [h]

theorem processUnit_nil_of_small_bbox (p : Provider) (target : String) (u : TextUnit)
    (h : u.bbox.width < 10 ∨ u.bbox.height < 10) :
    processUnit p target u = [] := by
  unfold processUnit
  by_cases hb : u.btype ≠ 0
  · rw [if_pos hb]
  · rw [if_neg hb]
    by_cases h1 : (pyStrip u.text = [] || pyIsDigit (pyStrip u.text)
        || decide ((pyStrip u.text).length < 3)) = true
    · simp [h1]
    · simp only [h1, if_false]
      by_cases h2 : (!(pyStrip u.text).any isLetterClass) = true
      · simp [h2]
      · simp only [h2, if_false]
        simp [h]

/-- C8: in the page rewriter's per-unit step, a unit whose trimmed text is
empty, purely numeric, shorter than 3 characters, or without any letter-class
character triggers no translation call; and a unit whose bounding box is
narrower or shorter than 10 layout units triggers no redaction and no text
insertion. -/
theorem c8_skip_rules (p : Provider) (target : String) (u : TextUnit) :
    ((pyStrip u.text = [] ∨ pyIsDigit (pyStrip u.text) = true ∨
        (pyStrip u.text).length < 3 ∨ (pyStrip u.text).any isLetterClass = false) →
      ∀ t, UnitAction.translateCall t ∉ processUnit p target u) ∧
    ((u.bbox.width < 10 ∨ u.bbox.height < 10) →
      (∀ r, UnitAction.redact r ∉ processUnit p target u) ∧
      (∀ pos line fs, UnitAction.insertLine pos line fs ∉ processUnit p target u)) := by
  constructor
  · intro h t
    rw [processUnit_nil_of_text_gate p target u h]
    exact List.not_mem_nil _
  · intro h
    rw [processUnit_nil_of_small_bbox p target u h]
    exact ⟨fun r => List.not_mem_nil _, fun pos line fs => List.not_mem_nil _⟩

/-- C8 (witness): a unit with text `"42"` in a large box triggers no
translation call, and a unit with a 5-wide box is never redacted or
rewritten. -/
theorem c8_skip_rules_witness :
    (∀ t, UnitAction.translateCall t ∉
        processUnit identityProvider "es" ⟨"42".data, [], ⟨0, 0, 100, 100⟩, 0⟩) ∧
    (∀ r, UnitAction.redact r ∉
        processUnit identityProvider "es" ⟨"Hello there".data, [], ⟨0, 0, 5, 100⟩, 0⟩) :=
  ⟨(c8_skip_rules identityProvider "es" ⟨"42".data, [], ⟨0, 0, 100, 100⟩, 0⟩).1
      (Or.inr (Or.inl (by decide))),
   ((c8_skip_rules identityProvider "es" ⟨"Hello there".data, [], ⟨0, 0, 5, 100⟩, 0⟩).2
      (Or.inl (by norm_num [Rect.width]))).1⟩

/-! ## C1 -/

/-- First block of the spec's merge scenario: top y = 100, height 20. -/
def mergeBlockA : Block :=
  ⟨0, ⟨0, 100, 50, 120⟩, some [⟨[⟨"Block one".data, ⟨0, 100, 50, 120⟩, 11⟩]⟩]⟩

/-- Second block of the spec's merge scenario: top y = 125, height 20 (gap of
5 below the first block's bottom edge 120). -/
def mergeBlockB : Block :=
  ⟨0, ⟨0, 125, 50, 145⟩, some [⟨[⟨"Block two".data, ⟨0, 125, 50, 145⟩, 11⟩]⟩]⟩

/-- Third block of the spec's merge scenario: top y = 500. -/
def mergeBlockC : Block :=
  ⟨0, ⟨0, 500, 50, 520⟩, some [⟨[⟨"Block three".data, ⟨0, 500, 50, 520⟩, 11⟩]⟩]⟩

/-- C1 (counterexample): on the spec's own scenario — text blocks at
y = 100 (bottom 120), y = 125 and y = 500 — the merge pass keeps all three
blocks separate.  The second block's top y (125) is compared against the
first block's **top** y (100), which `current_y` still holds before any
merge, so the measured gap is 25 > 15, not the claimed bottom-edge gap of 5;
the two blocks do not merge. -/
theorem c1_counterexample :
    mergeRelatedBlocks [mergeBlockA, mergeBlockB, mergeBlockC]
      = [mergeBlockA, mergeBlockB, mergeBlockC] ∧
    (mergeRelatedBlocks [mergeBlockA, mergeBlockB, mergeBlockC]).length = 3 := by
  have h : mergeRelatedBlocks [mergeBlockA, mergeBlockB, mergeBlockC]
      = [mergeBlockA, mergeBlockB, mergeBlockC] := by
    norm_num [mergeRelatedBlocks, sortByY, insertByY, mergeStep, joinBlocks,
      rectUnion, Block.nonText, mergeBlockA, mergeBlockB, mergeBlockC]
  exact ⟨h, by rw [h]; rfl⟩

/-- C1 (amended): in the merge pass over blocks sorted by top-y ascending, a
text block is merged into the current accumulator exactly when its top-y
differs by at most 15 units from the tracked coordinate `current_y`, which
is the **top**-y of the block that started the accumulator until a first
merge occurs, and the accumulated bbox's bottom-y only thereafter.  On the
spec's scenario (blocks at y = 100 with height 20, y = 125 with height 20,
and y = 500) the measured gaps are 25 and 375, so nothing merges and three
separate units emerge. -/
theorem c1_merge_threshold :
    (∀ (st : MergeSt) (cb b : Block), st.cur = some cb → b.btype = 0 →
      b.lines ≠ none →
      mergeStep st b =
        if |b.bbox.y0 - st.curY| ≤ 15 then
          ⟨st.merged, some (joinBlocks cb b), (rectUnion cb.bbox b.bbox).y1⟩
        else ⟨st.merged ++ [cb], some b, b.bbox.y0⟩) ∧
    (∀ (st : MergeSt) (b : Block), st.cur = none → b.btype = 0 →
      b.lines ≠ none →
      mergeStep st b = ⟨st.merged, some b, b.bbox.y0⟩) ∧
    mergeRelatedBlocks [mergeBlockA, mergeBlockB, mergeBlockC]
      = [mergeBlockA, mergeBlockB, mergeBlockC] := by
  have hnt : ∀ b : Block, b.btype = 0 → b.lines ≠ none → b.nonText = false := by
    intro b hb hl
    cases hlines : b.lines with
    | none => exact absurd hlines hl
    | some ls => simp [Block.nonText, hb, hlines]
  refine ⟨?_, ?_, ?_⟩
  · intro st cb b hcur hb hl
    rw [mergeStep, hnt b hb hl]
    simp only [Bool.false_eq_true, if_false, hcur]
    by_cases hgap : 15 < |b.bbox.y0 - st.curY|
    · rw [if_pos hgap, if_neg (not_le.mpr hgap)]
    · rw [if_neg hgap, if_pos (not_lt.mp hgap)]
      rfl
  · intro st b hcur hb hl
    rw [mergeStep, hnt b hb hl]
    simp only [Bool.false_eq_true, if_false, hcur]
  · norm_num [mergeRelatedBlocks, sortByY, insertByY, mergeStep, joinBlocks,
      rectUnion, Block.nonText, mergeBlockA, mergeBlockB, mergeBlockC]

/-- C1 (witness): feeding the block at y = 125 to an accumulator started at
the block at y = 100 closes the accumulator instead of merging. -/
theorem c1_merge_threshold_witness :
    mergeStep ⟨[], some mergeBlockA, 100⟩ mergeBlockB
      = ⟨[mergeBlockA], some mergeBlockB, 125⟩ := by
  have h := c1_merge_threshold.1 ⟨[], some mergeBlockA, 100⟩ mergeBlockA mergeBlockB
    rfl (by decide) (by decide)
  rw [h]
  norm_num [mergeBlockA, mergeBlockB]

/-! ## C3 -/

theorem accBBox_eq_specBBox (sps : List Span)
    (hx : ∀ t ∈ sps, 0 ≤ t.bbox.x1) (hy : ∀ t ∈ sps, 0 ≤ t.bbox.y1) :
    accBBox sps = specBBox sps := by
  cases sps with
  | nil => rfl
  | cons s rest =>
    rw [accBBox, specBBox]
    congr 1
    rw [max_eq_right (hx s (List.mem_cons_self s rest)),
      max_eq_right (hy s (List.mem_cons_self s rest))]

theorem mkUnit_some {b : Block} {u : TextUnit} (h : mkUnit b = some u) :
    u.spans = nonBlankSpans b ∧ u.bbox = accBBox (nonBlankSpans b) ∧
      nonBlankSpans b ≠ [] := by
  unfold mkUnit at h
  cases hl : b.lines with
  | none => rw [hl] at h; exact absurd h (by simp)
  | some ls =>
    rw [hl] at h
    simp only at h
    split at h
    · exact absurd h (by simp)
    · rename_i hraw
      obtain rfl : (⟨_, _, _, _⟩ : TextUnit) = u := Option.some_injective _ h
      refine ⟨rfl, rfl, ?_⟩
      intro hnil
      rw [hnil] at hraw
      exact hraw rfl

/-- The single-span block with negative coordinates refuting C3. -/
def negSpanBlock : Block :=
  ⟨0, ⟨0, 0, 0, 0⟩, some [⟨[⟨"Hi".data, ⟨-5, -5, -1, -1⟩, 12⟩]⟩]⟩

/-- The single-span block with positive coordinates witnessing C3's amended
form. -/
def posSpanBlock : Block :=
  ⟨0, ⟨0, 0, 9, 9⟩, some [⟨[⟨"Hi".data, ⟨1, 2, 3, 4⟩, 12⟩]⟩]⟩

/-- C3 (counterexample): a unit extracted from a block whose only span has
the all-negative bbox `(-5, -5, -1, -1)` gets bbox `(-5, -5, 0, 0)` — the
maximum accumulators of `analyze_pdf` start at 0, not at the first span —
which differs from the coordinate-wise min/max `(-5, -5, -1, -1)` over its
non-blank spans. -/
theorem c3_counterexample :
    (extractUnits [negSpanBlock]).map TextUnit.bbox = [⟨-5, -5, 0, 0⟩] ∧
    (extractUnits [negSpanBlock]).map (fun u => specBBox u.spans)
      = [⟨-5, -5, -1, -1⟩] ∧
    (⟨-5, -5, 0, 0⟩ : Rect) ≠ ⟨-5, -5, -1, -1⟩ := by
  refine ⟨by decide, by decide, by decide⟩

/-- C3 (amended): every text unit emitted by the extractor has a non-empty
span list, namely exactly the non-blank spans of its merged block (spans with
empty or whitespace-only text contribute to neither the text nor the bbox),
and its bbox equals the `analyze_pdf` accumulation whose minima are the true
coordinate-wise minima but whose maxima start at 0; whenever every span's
`x1` and `y1` are nonnegative, the bbox equals the coordinate-wise min/max
over the non-blank spans' bboxes. -/
theorem c3_bbox_union (blocks : List Block) (u : TextUnit)
    (hu : u ∈ extractUnits blocks) :
    u.spans ≠ [] ∧
    (∃ b ∈ mergeRelatedBlocks blocks, mkUnit b = some u ∧
      u.spans = nonBlankSpans b) ∧
    u.bbox = accBBox u.spans ∧
    ((∀ t ∈ u.spans, 0 ≤ t.bbox.x1 ∧ 0 ≤ t.bbox.y1) →
      u.bbox = specBBox u.spans) := by
  obtain ⟨b, hb, hmk⟩ := List.mem_filterMap.mp hu
  obtain ⟨hsp, hbb, hne⟩ := mkUnit_some hmk
  have hbb2 : u.bbox = accBBox u.spans := by rw [hsp]; exact hbb
  refine ⟨by rw [hsp]; exact hne, ⟨b, hb, hmk, hsp⟩, hbb2, ?_⟩
  intro hpos
  rw [hbb2, accBBox_eq_specBBox u.spans (fun t ht => (hpos t ht).1)
    (fun t ht => (hpos t ht).2)]

/-- C3 (witness): a unit extracted from a block with one span at
`(1, 2, 3, 4)` has bbox equal to the min/max union of its spans. -/
theorem c3_bbox_union_witness :
    (⟨"Hi".data, [⟨"Hi".data, ⟨1, 2, 3, 4⟩, 12⟩], ⟨1, 2, 3, 4⟩, 0⟩ : TextUnit).bbox
      = specBBox [⟨"Hi".data, ⟨1, 2, 3, 4⟩, 12⟩] :=
  (c3_bbox_union [posSpanBlock] _ (by decide)).2.2.2 (by decide)

/-! ## C4 -/

/-- Total length of a list of pieces. -/
def sumLen (l : List (List Char)) : Nat :=
  (l.map List.length).sum

theorem sumLen_nil : sumLen [] = 0 := rfl

theorem sumLen_singleton (s : List Char) : sumLen [s] = s.length := by
  simp [sumLen]

theorem sumLen_append (a b : List (List Char)) :
    sumLen (a ++ b) = sumLen a + sumLen b := by
  simp [sumLen]

theorem joinSpace_length (l : List (List Char)) (h : l ≠ []) :
    (joinSpace l).length + 1 = sumLen l + l.length := by
  induction l with
  | nil => exact absurd rfl h
  | cons p rest ih =>
    cases rest with
    | nil => simp [joinSpace, joinSep, sumLen]
    | cons q t =>
      have h2 := ih (by simp)
      simp only [joinSpace, joinSep] at h2 ⊢
      simp [sumLen] at h2 ⊢
      omega

theorem buildChunksAux_bound (sents0 : List (List Char)) :
    ∀ (rest cur : List (List Char)),
      (∀ s ∈ rest, s ∈ sents0) →
      (sumLen cur ≤ 4000 ∨ ∃ s, s ∈ sents0 ∧ cur = [s]) →
      cur.length + rest.length ≤ sents0.length →
      ∀ c ∈ buildChunksAux rest cur (sumLen cur),
        c ∈ sents0 ∨ c.length ≤ 3999 + sents0.length := by
  have hclose : ∀ (cur : List (List Char)), cur ≠ [] →
      (sumLen cur ≤ 4000 ∨ ∃ s, s ∈ sents0 ∧ cur = [s]) →
      cur.length ≤ sents0.length →
      joinSpace cur ∈ sents0 ∨ (joinSpace cur).length ≤ 3999 + sents0.length := by
    intro cur hne hinv hlen
    rcases hinv with hle | ⟨s, hs, rfl⟩
    · right
      have := joinSpace_length cur hne
      omega
    · left
      simpa [joinSpace, joinSep] using hs
  intro rest
  induction rest with
  | nil =>
    intro cur hsub hinv hlen c hc
    rw [buildChunksAux] at hc
    split at hc
    · exact absurd hc (List.not_mem_nil c)
    · rename_i hne
      rw [List.mem_singleton] at hc
      subst hc
      exact hclose cur hne hinv (by simpa using hlen)
  | cons s rest ih =>
    intro cur hsub hinv hlen c hc
    rw [buildChunksAux] at hc
    split at hc
    · rename_i hcond
      rcases List.mem_cons.mp hc with rfl | hc2
      · exact hclose cur hcond.2 hinv (by omega)
      · have hs : s ∈ sents0 := hsub s (List.mem_cons_self s rest)
        have : s.length = sumLen [s] := (sumLen_singleton s).symm
        rw [this] at hc2
        refine ih [s] (fun t ht => hsub t (List.mem_cons_of_mem s ht))
          (Or.inr ⟨s, hs, rfl⟩) ?_ c hc2
        have h1 : 1 ≤ cur.length := List.length_pos.mpr hcond.2
        simp only [List.length_cons] at hlen
        simp only [List.length_singleton]
        omega
    · rename_i hcond
      have heq : sumLen cur + s.length = sumLen (cur ++ [s]) := by
        rw [sumLen_append, sumLen_singleton]
      rw [heq] at hc
      have hinv2 : sumLen (cur ++ [s]) ≤ 4000 ∨
          ∃ t, t ∈ sents0 ∧ cur ++ [s] = [t] := by
        rcases Decidable.not_and_iff_or_not.mp hcond with h | h
        · left
          rw [sumLen_append, sumLen_singleton]
          omega
        · right
          have : cur = [] := Decidable.not_not.mp h
          subst this
          exact ⟨s, hsub s (List.mem_cons_self s rest), rfl⟩
      refine ih (cur ++ [s]) (fun t ht => hsub t (List.mem_cons_of_mem s ht))
        hinv2 ?_ c hc
      simp only [List.length_append, List.length_singleton]
      simp only [List.length_cons] at hlen
      omega

theorem translateChunks_calls_mem (p : Provider) :
    ∀ (chunks : List (List Char)) (c : List Char),
      c ∈ (translateChunks p chunks).2 → c ∈ chunks := by
  intro chunks
  induction chunks with
  | nil => intro c hc; simp [translateChunks] at hc
  | cons d rest ih =>
    intro c hc
    rw [translateChunks] at hc
    split at hc
    · exact List.mem_cons_of_mem d (ih c hc)
    · revert hc
      match hp : p d with
      | none => intro hc; rw [List.mem_singleton] at hc; exact hc ▸ List.mem_cons_self d rest
      | some t =>
        match hrec : translateChunks p rest with
        | (some ts, cs) =>
          intro hc
          rcases List.mem_cons.mp hc with rfl | hc2
          · exact List.mem_cons_self c rest
          · exact List.mem_cons_of_mem d (ih c (by rw [hrec]; exact hc2))
        | (none, cs) =>
          intro hc
          rcases List.mem_cons.mp hc with rfl | hc2
          · exact List.mem_cons_self c rest
          · exact List.mem_cons_of_mem d (ih c (by rw [hrec]; exact hc2))

theorem attemptTranslate_calls_of_long (p : Provider) (text : List Char)
    (h : 4000 < text.length) :
    (attemptTranslate p text).2
      = (translateChunks p (buildChunks (splitSentences text))).2 := by
  rw [attemptTranslate, if_pos h]
  match hr : translateChunks p (buildChunks (splitSentences text)) with
  | (some ts, cs) => rfl
  | (none, cs) => rfl

/-- C4 (amended): for a text over the 4000-character maximum, the translator
splits at sentence boundaries and greedily packs whole sentences, bounding
only the sum of sentence lengths per chunk; hence every text passed to the
provider is either a single (possibly over-long) sentence or a space-joined
chunk of length at most 3999 + (number of sentences).  Chunks can therefore
exceed 4000 characters: by the joining spaces, and without bound when one
sentence is itself longer than 4000 characters. -/
theorem c4_chunk_bound (p : Provider) (text : List Char)
    (h : 4000 < text.length) :
    ∀ c ∈ (attemptTranslate p text).2,
      c ∈ splitSentences text ∨
        c.length ≤ 3999 + (splitSentences text).length := by
  intro c hc
  rw [attemptTranslate_calls_of_long p text h] at hc
  have hchunk : c ∈ buildChunks (splitSentences text) :=
    translateChunks_calls_mem p _ c hc
  have h0 : sumLen ([] : List (List Char)) = 0 := rfl
  refine buildChunksAux_bound (splitSentences text) (splitSentences text) []
    (fun s hs => hs) (Or.inl (by rw [h0]; omega)) (by simp) c ?_
  rw [h0]
  exact hchunk

theorem splitSentGo_no_boundary :
    ∀ (l acc rest : List Char), (∀ c ∈ l, sentEnd c = false) →
      splitSentGo (l ++ rest) false acc = splitSentGo rest false (l.reverse ++ acc) := by
  intro l
  induction l with
  | nil => intro acc rest _; simp
  | cons c t ih =>
    intro acc rest h
    have hc : sentEnd c = false := h c (List.mem_cons_self c t)
    rw [List.cons_append, splitSentGo]
    simp only [Bool.false_and, Bool.false_eq_true, if_false, hc]
    rw [ih (c :: acc) rest (fun d hd => h d (List.mem_cons_of_mem c hd))]
    simp

theorem splitSentences_no_boundary (l : List Char)
    (h : ∀ c ∈ l, sentEnd c = false) : splitSentences l = [l] := by
  have h2 := splitSentGo_no_boundary l [] [] h
  rw [List.append_nil] at h2
  rw [splitSentences, h2, splitSentGo]
  simp

theorem pyStrip_cons_append (c d : Char) (l : List Char)
    (hc : isSpace c = false) (hd : isSpace d = false) :
    pyStrip (c :: (l ++ [d])) = c :: (l ++ [d]) := by
  rw [pyStrip, List.dropWhile_cons_of_neg (by simp [hc])]
  rw [show (c :: (l ++ [d])).reverse = d :: (l.reverse ++ [c]) by simp]
  rw [List.dropWhile_cons_of_neg (by simp [hd])]
  simp

/-- The 4001-character single-sentence text refuting C4's chunk-length
bound. -/
def longA : List Char :=
  List.replicate 4001 'a'

theorem longA_shape : longA = 'a' :: (List.replicate 3999 'a' ++ ['a']) := by
  rw [longA, List.replicate_succ, List.replicate_succ']

theorem pyStrip_longA : pyStrip longA = longA := by
  rw [longA_shape, pyStrip_cons_append 'a' 'a' _ (by decide) (by decide)]

theorem attemptTranslate_longA :
    attemptTranslate failingProvider longA = (none, [longA]) := by
  have hlen : 4000 < longA.length := by rw [longA, List.length_replicate]; omega
  have hsent : splitSentences longA = [longA] :=
    splitSentences_no_boundary _ (fun c hc => by
      rw [List.eq_of_mem_replicate hc]; decide)
  have hchunks : buildChunks [longA] = [longA] := by
    rw [buildChunks, buildChunksAux]
    rw [if_neg (by simp)]
    rw [buildChunksAux, if_neg (by simp)]
    simp [joinSpace, joinSep]
  have hne : longA ≠ [] := by
    intro h0
    have h1 := congrArg List.length h0
    rw [longA, List.length_replicate, List.length_nil] at h1
    exact absurd h1 (by decide)
  have htc : translateChunks failingProvider [longA] = (none, [longA]) := by
    rw [translateChunks, if_neg (by rw [pyStrip_longA]; exact hne)]
    rfl
  rw [attemptTranslate, if_pos hlen, hsent, hchunks, htc]

/-- C4 (counterexample): the 4001-character text consisting of a single
sentence (no sentence-final punctuation) exceeds the 4000-character maximum,
yet the whole 4001-character text is passed to the provider as one chunk. -/
theorem c4_counterexample :
    (attemptTranslate failingProvider longA).2 = [longA] ∧
      4000 < longA.length := by
  rw [attemptTranslate_longA]
  exact ⟨rfl, by rw [longA, List.length_replicate]; omega⟩

/-- C4 (witness): the single over-long chunk of the 4001-character text is
one of its sentences. -/
theorem c4_chunk_bound_witness :
    longA ∈ splitSentences longA ∨
      longA.length ≤ 3999 + (splitSentences longA).length := by
  refine c4_chunk_bound failingProvider longA
    (by rw [longA, List.length_replicate]; omega) longA ?_
  rw [attemptTranslate_longA]
  exact List.mem_singleton.mpr rfl

/-! ## C5 -/

/-- A provider that translates everything to the fixed string `"XX"`. -/
def constProvider : Provider :=
  fun _ => some "XX".data

theorem pyStrip_eq_nil_iff (l : List Char) :
    pyStrip l = [] ↔ ∀ c ∈ l, isSpace c = true := by
  constructor
  · intro h c hc
    rw [pyStrip, List.reverse_eq_nil_iff, List.dropWhile_eq_nil_iff] at h
    by_cases hcdrop : c ∈ l.dropWhile isSpace
    · exact h c (List.mem_reverse.mpr hcdrop)
    · have hsplit : l.takeWhile isSpace ++ l.dropWhile isSpace = l :=
        List.takeWhile_append_dropWhile isSpace l
      have : c ∈ l.takeWhile isSpace := by
        rcases List.mem_append.mp (hsplit ▸ hc) with h1 | h1
        · exact h1
        · exact absurd h1 hcdrop
      exact List.mem_takeWhile_imp this
  · intro h
    have h1 : l.dropWhile isSpace = [] := List.dropWhile_eq_nil_iff.mpr h
    rw [pyStrip, h1]
    rfl

theorem splitParasGo_all_space :
    ∀ (l acc : List Char) (runOpt : Option (List Char)),
      (∀ c ∈ l, isSpace c = true) → (∀ c ∈ acc, isSpace c = true) →
      (∀ r, runOpt = some r → ∀ c ∈ r, isSpace c = true) →
      ∀ p ∈ splitParasGo l acc runOpt, ∀ c ∈ p, isSpace c = true := by
  intro l
  induction l with
  | nil =>
    intro acc runOpt _ hacc hrun p hp c hc
    match runOpt, hp with
    | none, hp =>
      rw [splitParasGo, List.mem_singleton] at hp
      subst hp
      exact hacc c (List.mem_reverse.mp hc)
    | some run, hp =>
      rw [splitParasGo] at hp
      split at hp
      · rcases List.mem_cons.mp hp with rfl | hp2
        · exact hacc c (List.mem_reverse.mp hc)
        · rw [List.mem_singleton] at hp2
          subst hp2
          exact hrun run rfl c (List.takeWhile_subset _ (List.mem_reverse.mp hc))
      · rw [List.mem_singleton] at hp
        subst hp
        rcases List.mem_append.mp (List.mem_reverse.mp hc) with h1 | h1
        · exact hrun run rfl c h1
        · exact hacc c h1
  | cons d rest ih =>
    intro acc runOpt hl hacc hrun p hp c hc
    have hd : isSpace d = true := hl d (List.mem_cons_self d rest)
    have hrest : ∀ x ∈ rest, isSpace x = true :=
      fun x hx => hl x (List.mem_cons_of_mem d hx)
    match runOpt, hp with
    | none, hp =>
      rw [splitParasGo] at hp
      split at hp
      · exact ih acc (some ['\n']) hrest hacc
          (fun r hr => by
            obtain rfl : ['\n'] = r := Option.some_injective _ hr
            intro x hx
            rw [List.mem_singleton] at hx
            subst hx
            rfl) p hp c hc
      · exact ih (d :: acc) none hrest
          (fun x hx => by
            rcases List.mem_cons.mp hx with rfl | hx2
            · exact hd
            · exact hacc x hx2)
          (fun r hr => by exact absurd hr (by simp)) p hp c hc
    | some run, hp =>
      rw [splitParasGo, if_pos hd] at hp
      exact ih acc (some (d :: run)) hrest hacc
        (fun r hr => by
          obtain rfl : d :: run = r := Option.some_injective _ hr
          intro x hx
          rcases List.mem_cons.mp hx with rfl | hx2
          · exact hd
          · exact hrun run rfl x hx2) p hp c hc

theorem paragraphsOf_nil_of_blank (text : List Char) (h : pyStrip text = []) :
    paragraphsOf text = [] := by
  have hall : ∀ c ∈ text, isSpace c = true := (pyStrip_eq_nil_iff text).mp h
  have hpieces : ∀ p ∈ splitParagraphs text, ∀ c ∈ p, isSpace c = true :=
    splitParasGo_all_space text [] none hall (by simp) (by simp)
  rw [paragraphsOf, List.filter_eq_nil_iff]
  intro a ha
  obtain ⟨p, hp, rfl⟩ := List.mem_map.mp ha
  have : pyStrip p = [] := (pyStrip_eq_nil_iff p).mpr (hpieces p hp)
  simp [this]

theorem paragraphsOf_strip_ne_nil {text : List Char}
    (h : paragraphsOf text ≠ []) : pyStrip text ≠ [] := by
  intro hblank
  exact h (paragraphsOf_nil_of_blank text hblank)

theorem translateText_multi_par (p : Provider) (text : List Char)
    (target : String) (retries : Nat)
    (h2 : 2 ≤ (paragraphsOf text).length) :
    translateText p text target retries true
      = (joinNl2 ((paragraphsOf text).map
          (fun q => (translatePara p target retries q).1)),
         ((paragraphsOf text).map
          (fun q => (translatePara p target retries q).2)).flatten) := by
  have hne : paragraphsOf text ≠ [] := by
    intro h0
    rw [h0] at h2
    simp at h2
  have hstrip : pyStrip text ≠ [] := paragraphsOf_strip_ne_nil hne
  rw [translateText, if_neg hstrip, if_pos rfl, if_neg hne, if_pos (by omega)]
  simp [List.map_map, Function.comp_def]

/-- C5 (counterexample): `translate("42", "es")` has a single paragraph, so
the short/numeric skip (which lives only in the multi-paragraph branch) never
runs: the provider **is** called with `"42"`, and the provider's output,
not the verbatim paragraph, is returned. -/
theorem c5_counterexample :
    translateText constProvider "42".data "es" 3 true
      = ("XX".data, ["42".data]) ∧ "XX".data ≠ "42".data := by
  refine ⟨by decide, by decide⟩

/-- C5 (amended): when the input splits into two or more paragraphs, every
paragraph consisting solely of digits or shorter than 3 characters is passed
through verbatim with no provider call for it — the result joins the
per-paragraph results and every provider call stems from some paragraph that
is neither short nor numeric.  A single-paragraph input is sent to the
provider regardless of being short or numeric. -/
theorem c5_short_paragraph_passthrough (p : Provider) (text : List Char)
    (target : String) (retries : Nat)
    (h2 : 2 ≤ (paragraphsOf text).length) :
    (translateText p text target retries true).1
      = joinNl2 ((paragraphsOf text).map
          (fun q => (translatePara p target retries q).1)) ∧
    (∀ q, q.length < 3 ∨ pyIsDigit q = true →
      translatePara p target retries q = (q, [])) ∧
    (∀ c ∈ (translateText p text target retries true).2,
      ∃ q ∈ paragraphsOf text, ¬(q.length < 3 ∨ pyIsDigit q = true) ∧
        c ∈ (translateNoPar p q target retries).2) := by
  have hbody := translateText_multi_par p text target retries h2
  have hcond : ∀ q : List Char, (decide (q.length < 3) || pyIsDigit q) = true
      ↔ (q.length < 3 ∨ pyIsDigit q = true) := by
    intro q
    simp [Bool.or_eq_true, decide_eq_true_eq]
  refine ⟨by rw [hbody], ?_, ?_⟩
  · intro q hq
    rw [translatePara, if_pos ((hcond q).mpr hq)]
  · intro c hc
    rw [hbody] at hc
    simp only at hc
    obtain ⟨piece, hpiece, hcpiece⟩ := List.mem_flatten.mp hc
    obtain ⟨q, hq, rfl⟩ := List.mem_map.mp hpiece
    refine ⟨q, hq, ?_, ?_⟩
    · intro hshort
      rw [translatePara, if_pos ((hcond q).mpr hshort)] at hcpiece
      exact absurd hcpiece (List.not_mem_nil c)
    · by_cases hshort : (decide (q.length < 3) || pyIsDigit q) = true
      · rw [translatePara, if_pos hshort] at hcpiece
        exact absurd hcpiece (List.not_mem_nil c)
      · rw [translatePara, if_neg hshort] at hcpiece
        exact hcpiece

/-- C5 (witness): in the two-paragraph text `"Hi there!\n\n42"`, the numeric
paragraph `"42"` passes through verbatim with no provider call. -/
theorem c5_short_paragraph_passthrough_witness :
    translatePara constProvider "es" 3 "42".data = ("42".data, []) :=
  (c5_short_paragraph_passthrough constProvider "Hi there!\n\n42".data "es" 3
    (by decide)).2.1 "42".data (Or.inr (by decide))

/-! ## C2 -/

theorem splitSentGo_covers :
    ∀ (l : List Char) (sk : Bool) (acc : List Char), (sk = true → acc = []) →
      ∀ d, isSpace d = false → (d ∈ acc ∨ d ∈ l) →
        ∃ s ∈ splitSentGo l sk acc, d ∈ s := by
  intro l
  induction l with
  | nil =>
    intro sk acc _ d _ hd
    rcases hd with hd | hd
    · exact ⟨acc.reverse, List.mem_singleton.mpr rfl, List.mem_reverse.mpr hd⟩
    · exact absurd hd (List.not_mem_nil d)
  | cons c rest ih =>
    intro sk acc hinv d hdns hd
    rw [splitSentGo]
    by_cases h1 : (sk && isSpace c) = true
    · rw [if_pos h1]
      have hacc : acc = [] := hinv (Bool.and_elim_left h1)
      have hcs : isSpace c = true := Bool.and_elim_right h1
      refine ih true [] (fun _ => rfl) d hdns (Or.inr ?_)
      rcases hd with hd | hd
      · rw [hacc] at hd
        exact absurd hd (List.not_mem_nil d)
      · rcases List.mem_cons.mp hd with rfl | hd2
        · rw [hcs] at hdns
          exact absurd hdns (by simp)
        · exact hd2
    · rw [if_neg (by simp [h1])]
      by_cases h2 : (sentEnd c && headIsSpace rest) = true
      · rw [if_pos h2]
        rcases hd with hd | hd
        · exact ⟨acc.reverse ++ [c], List.mem_cons_self _ _,
            List.mem_append.mpr (Or.inl (List.mem_reverse.mpr hd))⟩
        · rcases List.mem_cons.mp hd with rfl | hd2
          · exact ⟨acc.reverse ++ [d], List.mem_cons_self _ _,
              List.mem_append.mpr (Or.inr (List.mem_singleton.mpr rfl))⟩
          · obtain ⟨s, hs, hds⟩ := ih true [] (fun _ => rfl) d hdns (Or.inr hd2)
            exact ⟨s, List.mem_cons_of_mem _ hs, hds⟩
      · rw [if_neg (by simp [h2])]
        refine ih false (c :: acc) (by simp) d hdns ?_
        rcases hd with hd | hd
        · exact Or.inl (List.mem_cons_of_mem c hd)
        · rcases List.mem_cons.mp hd with rfl | hd2
          · exact Or.inl (List.mem_cons_self d acc)
          · exact Or.inr hd2

theorem splitParasGo_covers :
    ∀ (l acc : List Char) (runOpt : Option (List Char)),
      (∀ r, runOpt = some r → ∀ c ∈ r, isSpace c = true) →
      ∀ d, isSpace d = false → (d ∈ acc ∨ d ∈ l) →
        ∃ p ∈ splitParasGo l acc runOpt, d ∈ p := by
  intro l
  induction l with
  | nil =>
    intro acc runOpt hrun d hdns hd
    have hdacc : d ∈ acc := by
      rcases hd with hd | hd
      · exact hd
      · exact absurd hd (List.not_mem_nil d)
    match runOpt with
    | none =>
      exact ⟨acc.reverse, List.mem_singleton.mpr rfl, List.mem_reverse.mpr hdacc⟩
    | some run =>
      rw [splitParasGo]
      split
      · exact ⟨acc.reverse, List.mem_cons_self _ _, List.mem_reverse.mpr hdacc⟩
      · exact ⟨(run ++ acc).reverse, List.mem_singleton.mpr rfl,
          List.mem_reverse.mpr (List.mem_append.mpr (Or.inr hdacc))⟩
  | cons c rest ih =>
    intro acc runOpt hrun d hdns hd
    match runOpt with
    | none =>
      rw [splitParasGo]
      by_cases hc : c = '\n'
      · rw [if_pos hc]
        refine ih acc (some ['\n']) (fun r hr => by
          obtain rfl : ['\n'] = r := Option.some_injective _ hr
          intro x hx
          rw [List.mem_singleton] at hx
          subst hx
          rfl) d hdns ?_
        rcases hd with hd | hd
        · exact Or.inl hd
        · rcases List.mem_cons.mp hd with rfl | hd2
          · subst hc
            exact absurd hdns (by decide)
          · exact Or.inr hd2
      · rw [if_neg hc]
        refine ih (c :: acc) none (fun r hr => absurd hr (by simp)) d hdns ?_
        rcases hd with hd | hd
        · exact Or.inl (List.mem_cons_of_mem c hd)
        · rcases List.mem_cons.mp hd with rfl | hd2
          · exact Or.inl (List.mem_cons_self d acc)
          · exact Or.inr hd2
    | some run =>
      rw [splitParasGo]
      by_cases hc : isSpace c = true
      · rw [if_pos hc]
        refine ih acc (some (c :: run)) (fun r hr => by
          obtain rfl : c :: run = r := Option.some_injective _ hr
          intro x hx
          rcases List.mem_cons.mp hx with rfl | hx2
          · exact hc
          · exact hrun run rfl x hx2) d hdns ?_
        rcases hd with hd | hd
        · exact Or.inl hd
        · rcases List.mem_cons.mp hd with rfl | hd2
          · rw [hc] at hdns
            exact absurd hdns (by simp)
          · exact Or.inr hd2
      · rw [if_neg hc]
        split
        · rcases hd with hd | hd
          · exact ⟨acc.reverse, List.mem_cons_self _ _, List.mem_reverse.mpr hd⟩
          · rcases List.mem_cons.mp hd with rfl | hd2
            · obtain ⟨p, hp, hdp⟩ := ih (d :: run.takeWhile (· ≠ '\n')) none
                (fun r hr => absurd hr (by simp)) d hdns
                (Or.inl (List.mem_cons_self d _))
              exact ⟨p, List.mem_cons_of_mem _ hp, hdp⟩
            · obtain ⟨p, hp, hdp⟩ := ih (c :: run.takeWhile (· ≠ '\n')) none
                (fun r hr => absurd hr (by simp)) d hdns (Or.inr hd2)
              exact ⟨p, List.mem_cons_of_mem _ hp, hdp⟩
        · refine ih (c :: (run ++ acc)) none (fun r hr => absurd hr (by simp))
            d hdns ?_
          rcases hd with hd | hd
          · exact Or.inl (List.mem_cons_of_mem c (List.mem_append.mpr (Or.inr hd)))
          · rcases List.mem_cons.mp hd with rfl | hd2
            · exact Or.inl (List.mem_cons_self d _)
            · exact Or.inr hd2

theorem mem_joinSpace_of_mem {d : Char} :
    ∀ (parts : List (List Char)) (s : List Char), s ∈ parts → d ∈ s →
      d ∈ joinSpace parts := by
  intro parts
  induction parts with
  | nil => intro s hs _; exact absurd hs (List.not_mem_nil s)
  | cons p rest ih =>
    intro s hs hds
    cases rest with
    | nil =>
      rw [List.mem_singleton] at hs
      subst hs
      exact hds
    | cons q t =>
      show d ∈ joinSep [' '] (p :: q :: t)
      rw [joinSep]
      rcases List.mem_cons.mp hs with rfl | hs2
      · exact List.mem_append.mpr (Or.inl (List.mem_append.mpr (Or.inl hds)))
      · exact List.mem_append.mpr (Or.inr (ih s hs2 hds))

theorem buildChunksAux_covers {d : Char} :
    ∀ (rest cur : List (List Char)) (cnt : Nat),
      ((∃ s ∈ rest, d ∈ s) ∨ (∃ s ∈ cur, d ∈ s)) →
      ∃ ch ∈ buildChunksAux rest cur cnt, d ∈ ch := by
  intro rest
  induction rest with
  | nil =>
    intro cur cnt hmem
    rcases hmem with ⟨s, hs, _⟩ | ⟨s, hs, hds⟩
    · exact absurd hs (List.not_mem_nil s)
    · rw [buildChunksAux, if_neg (by rintro rfl; exact List.not_mem_nil s hs)]
      exact ⟨joinSpace cur, List.mem_singleton.mpr rfl,
        mem_joinSpace_of_mem cur s hs hds⟩
  | cons t rest ih =>
    intro cur cnt hmem
    rw [buildChunksAux]
    split
    · rename_i hcond
      rcases hmem with ⟨s, hs, hds⟩ | ⟨s, hs, hds⟩
      · rcases List.mem_cons.mp hs with rfl | hs2
        · obtain ⟨ch, hch, hdch⟩ := ih [s] s.length (Or.inr ⟨s, List.mem_singleton.mpr rfl, hds⟩)
          exact ⟨ch, List.mem_cons_of_mem _ hch, hdch⟩
        · obtain ⟨ch, hch, hdch⟩ := ih [t] t.length (Or.inl ⟨s, hs2, hds⟩)
          exact ⟨ch, List.mem_cons_of_mem _ hch, hdch⟩
      · exact ⟨joinSpace cur, List.mem_cons_self _ _,
          mem_joinSpace_of_mem cur s hs hds⟩
    · rcases hmem with ⟨s, hs, hds⟩ | ⟨s, hs, hds⟩
      · rcases List.mem_cons.mp hs with rfl | hs2
        · exact ih (cur ++ [s]) (cnt + s.length)
            (Or.inr ⟨s, List.mem_append.mpr (Or.inr (List.mem_singleton.mpr rfl)), hds⟩)
        · exact ih (cur ++ [t]) (cnt + t.length) (Or.inl ⟨s, hs2, hds⟩)
      · exact ih (cur ++ [t]) (cnt + t.length)
          (Or.inr ⟨s, List.mem_append.mpr (Or.inl hs), hds⟩)

theorem exists_nonspace_of_strip_ne_nil {l : List Char} (h : pyStrip l ≠ []) :
    ∃ c ∈ l, isSpace c = false := by
  by_contra hno
  push_neg at hno
  refine h ((pyStrip_eq_nil_iff l).mpr ?_)
  intro c hc
  simpa using hno c hc

theorem strip_ne_nil_of_mem_nonspace {l : List Char} {c : Char}
    (hc : c ∈ l) (hns : isSpace c = false) : pyStrip l ≠ [] := by
  intro h
  have := (pyStrip_eq_nil_iff l).mp h c hc
  rw [this] at hns
  exact absurd hns (by simp)

theorem translateChunks_failing :
    ∀ (chunks : List (List Char)), (∃ ch ∈ chunks, pyStrip ch ≠ []) →
      (translateChunks failingProvider chunks).1 = none := by
  intro chunks
  induction chunks with
  | nil => intro ⟨ch, hch, _⟩; exact absurd hch (List.not_mem_nil ch)
  | cons d rest ih =>
    intro ⟨ch, hch, hne⟩
    rw [translateChunks]
    by_cases hd : pyStrip d = []
    · rw [if_pos hd]
      refine ih ⟨ch, ?_, hne⟩
      rcases List.mem_cons.mp hch with rfl | h2
      · exact absurd hd hne
      · exact h2
    · rw [if_neg hd]
      rfl

theorem attemptTranslate_failing {text : List Char} (h : pyStrip text ≠ []) :
    (attemptTranslate failingProvider text).1 = none := by
  rw [attemptTranslate]
  by_cases hlen : 4000 < text.length
  · rw [if_pos hlen]
    obtain ⟨d, hdmem, hdns⟩ := exists_nonspace_of_strip_ne_nil h
    obtain ⟨s, hs, hds⟩ := splitSentGo_covers text false [] (by simp) d hdns
      (Or.inr hdmem)
    obtain ⟨ch, hch, hdch⟩ := buildChunksAux_covers (splitSentences text) [] 0
      (Or.inl ⟨s, hs, hds⟩)
    have hfail : (translateChunks failingProvider
        (buildChunks (splitSentences text))).1 = none :=
      translateChunks_failing _ ⟨ch, hch, strip_ne_nil_of_mem_nonspace hdch hdns⟩
    match htc : translateChunks failingProvider (buildChunks (splitSentences text)) with
    | (some ts, cs) => rw [htc] at hfail; exact absurd hfail (by simp)
    | (none, cs) => rfl
  · rw [if_neg hlen]
    rfl

theorem retryLoop_none {p : Provider} {text : List Char}
    (h : (attemptTranslate p text).1 = none) :
    ∀ n, (retryLoop p text n).1 = none := by
  intro n
  induction n with
  | zero => rfl
  | succ m ih =>
    rw [retryLoop]
    match hat : attemptTranslate p text with
    | (some r, cs) => rw [hat] at h; exact absurd h (by simp)
    | (none, cs) =>
      match hrl : retryLoop p text m with
      | (r, cs2) =>
        rw [hrl] at ih
        simp only at ih ⊢
        exact ih

theorem translateCore_failing {text : List Char} (h : pyStrip text ≠ [])
    (target : String) (retries : Nat) :
    (translateCore failingProvider text target retries).1
      = fallbackOr text target := by
  rw [translateCore]
  have hnone := retryLoop_none (attemptTranslate_failing h) retries
  match hrl : retryLoop failingProvider text retries with
  | (some r, cs) => rw [hrl] at hnone; exact absurd hnone (by simp)
  | (none, cs) => rfl

theorem subWordAux_ne_nil {pat rep : List Char} (hrep : rep ≠ []) :
    ∀ (fuel : Nat) (prevW : Bool) (l : List Char), l ≠ [] →
      subWordAux pat rep fuel prevW l ≠ [] := by
  intro fuel prevW l hl
  cases l with
  | nil => exact absurd rfl hl
  | cons c rest =>
    cases fuel with
    | zero =>
      rw [subWordAux]
      all_goals exact hl
    | succ m =>
      rw [subWordAux]
      cases hm : matchCI pat (c :: rest) with
      | none => simp
      | some rest2 =>
        simp only
        split
        · simp only [ne_eq, List.append_eq_nil]
          rintro ⟨h1, _⟩
          exact hrep h1
        · exact List.cons_ne_nil c _

theorem foldl_subWord_ne_nil :
    ∀ (d : List (List Char × List Char)), (∀ pr ∈ d, pr.2 ≠ []) →
      ∀ (t : List Char), t ≠ [] →
        d.foldl (fun t p => subWord p.1 p.2 t) t ≠ [] := by
  intro d
  induction d with
  | nil => intro _ t ht; exact ht
  | cons pr rest ih =>
    intro hreps t ht
    rw [List.foldl_cons]
    exact ih (fun q hq => hreps q (List.mem_cons_of_mem pr hq))
      (subWord pr.1 pr.2 t)
      (subWordAux_ne_nil (hreps pr (List.mem_cons_self pr rest)) t.length false t ht)

theorem fallbackDict_ne_nil {text : List Char} (h : text ≠ []) (target : String) :
    fallbackDict text target ≠ [] := by
  rw [fallbackDict]
  cases hf : (translationDictionaries.filter (fun e => e.1 = target)).head? with
  | none => exact h
  | some e =>
    have he : e ∈ translationDictionaries.filter (fun x => x.1 = target) :=
      List.mem_of_mem_head? hf
    have he2 : e ∈ translationDictionaries := List.mem_of_mem_filter he
    refine foldl_subWord_ne_nil e.2 ?_ text h
    rw [translationDictionaries] at he2
    rw [List.mem_singleton] at he2
    subst he2
    intro pr hpr
    fin_cases hpr <;> simp

theorem fallbackOr_ne_nil {text : List Char} (h : text ≠ []) (target : String) :
    fallbackOr text target ≠ [] := by
  rw [fallbackOr]
  split
  · exact fallbackDict_ne_nil h target
  · exact h

theorem joinNl2_ne_nil_of_two {l : List (List Char)} (h : 2 ≤ l.length) :
    joinNl2 l ≠ [] := by
  match l, h with
  | a :: b :: t, _ =>
    show joinSep ['\n', '\n'] (a :: b :: t) ≠ []
    rw [joinSep]
    simp

theorem paragraphsOf_ne_nil_of_strip {text : List Char} (h : pyStrip text ≠ []) :
    paragraphsOf text ≠ [] := by
  obtain ⟨d, hdmem, hdns⟩ := exists_nonspace_of_strip_ne_nil h
  obtain ⟨q, hq, hdq⟩ := splitParasGo_covers text [] none (fun r hr => absurd hr (by simp))
    d hdns (Or.inr hdmem)
  have hqs : pyStrip q ≠ [] := strip_ne_nil_of_mem_nonspace hdq hdns
  intro hnil
  rw [paragraphsOf, List.filter_eq_nil_iff] at hnil
  have h2 := hnil (pyStrip q) (List.mem_map_of_mem pyStrip hq)
  simp at h2
  exact hqs h2

theorem translateText_single_par (p : Provider) (text : List Char)
    (target : String) (retries : Nat) (hstrip : pyStrip text ≠ [])
    (h1 : (paragraphsOf text).length = 1) :
    translateText p text target retries true
      = translateCore p text target retries := by
  rw [translateText, if_neg hstrip, if_pos rfl,
    if_neg (paragraphsOf_ne_nil_of_strip hstrip), if_neg (by omega)]

/-- C2 (counterexample): on the non-empty input `"A.\n \nB."` with a provider
failing every call, `translate` returns `"A.\n\nB."`: the result differs both
from the original text and from the (here inert) substitution-table fallback,
because the multi-paragraph path re-joins stripped paragraphs with a
normalized blank line. -/
theorem c2_counterexample :
    (translateText failingProvider "A.\n \nB.".data "es" 3 true).1
      = "A.\n\nB.".data ∧
    fallbackDict "A.\n \nB.".data "es" = "A.\n \nB.".data ∧
    "A.\n\nB.".data ≠ "A.\n \nB.".data ∧
    "A.\n \nB.".data ≠ [] := by
  refine ⟨by decide, by decide, by decide, by decide⟩

/-- C2 (amended): for every input with non-whitespace content and a provider
failing on every call, `translate` (a total function here — no exception
escapes) returns a non-empty string; when the input does not split into
several paragraphs, the result is exactly the substitution-table fallback if
that differs from the input and the original text otherwise.  Whitespace-only
input returns the empty string, and multi-paragraph input is re-joined from
per-paragraph results with normalized blank lines. -/
theorem c2_fallback_guarantee (text : List Char) (retries : Nat)
    (h : pyStrip text ≠ []) :
    (translateText failingProvider text "es" retries true).1 ≠ [] ∧
    ((paragraphsOf text).length = 1 →
      (translateText failingProvider text "es" retries true).1
        = fallbackOr text "es") := by
  have htext : text ≠ [] := by
    intro h0
    rw [h0] at h
    exact h rfl
  constructor
  · rcases Nat.lt_or_ge (paragraphsOf text).length 2 with hlt | hge
    · have hne := paragraphsOf_ne_nil_of_strip h
      have h1 : (paragraphsOf text).length = 1 := by
        have := List.length_pos.mpr hne
        omega
      rw [translateText_single_par _ _ _ _ h h1, translateCore_failing h]
      exact fallbackOr_ne_nil htext "es"
    · rw [translateText_multi_par failingProvider text "es" retries hge]
      exact joinNl2_ne_nil_of_two (by rw [List.length_map]; exact hge)
  · intro h1
    rw [translateText_single_par _ _ _ _ h h1, translateCore_failing h]

/-- C2 (witness): `translate("Hello", "es")` with an always-failing provider
returns the substitution-table result `"Hola"`. -/
theorem c2_fallback_guarantee_witness :
    (translateText failingProvider "Hello".data "es" 3 true).1 = "Hola".data := by
  have h := (c2_fallback_guarantee "Hello".data 3 (by decide)).2 (by decide)
  rw [h]
  decide

/-! ## C9 -/

theorem strip_has_nonspace {l : List Char} (h : pyStrip l ≠ []) :
    ∃ c ∈ pyStrip l, isSpace c = false := by
  rw [pyStrip] at h ⊢
  cases hw : (l.dropWhile isSpace).reverse.dropWhile isSpace with
  | nil => rw [hw] at h; exact absurd rfl h
  | cons c t =>
    have hhead := List.head?_dropWhile_not isSpace (l.dropWhile isSpace).reverse
    rw [hw] at hhead
    simp only [List.head?_cons] at hhead
    exact ⟨c, List.mem_reverse.mpr (hw ▸ List.mem_cons_self c t), hhead⟩

theorem mem_paragraphsOf_props {text q : List Char}
    (hq : q ∈ paragraphsOf text) : q ≠ [] ∧ pyStrip q ≠ [] := by
  rw [paragraphsOf] at hq
  have hqne : q ≠ [] := by simpa using List.of_mem_filter hq
  obtain ⟨piece, _, rfl⟩ := List.mem_map.mp (List.mem_of_mem_filter hq)
  obtain ⟨c, hc, hcns⟩ := strip_has_nonspace hqne
  exact ⟨hqne, strip_ne_nil_of_mem_nonspace hc hcns⟩

theorem attemptTranslate_id_short {q : List Char} (h : q.length ≤ 4000) :
    attemptTranslate identityProvider q = (some q, [q]) := by
  rw [attemptTranslate, if_neg (by omega)]
  rfl

theorem translateCore_id_short {q : List Char} (h : q.length ≤ 4000)
    (target : String) :
    translateCore identityProvider q target 3 = (q, [q]) := by
  rw [translateCore, retryLoop, attemptTranslate_id_short h]

theorem translatePara_id {text q : List Char} (hq : q ∈ paragraphsOf text)
    (hlen : q.length ≤ 4000) (target : String) :
    (translatePara identityProvider target 3 q).1 = q := by
  rw [translatePara]
  split
  · rfl
  · rw [translateNoPar, if_neg (mem_paragraphsOf_props hq).2,
      translateCore_id_short hlen]

/-- C9 (amended): with a provider returning its input unchanged, translating
a two-paragraph text in paragraph mode yields the two (stripped) paragraphs
joined by exactly one blank line, regardless of the original inter-paragraph
whitespace — provided each paragraph is at most 4000 characters long, so
that the sentence-chunking path (which re-joins sentences with single
spaces) is not entered.  In particular `"A.\n\nB."` round-trips exactly. -/
theorem c9_paragraph_roundtrip (text p1 p2 : List Char) (target : String)
    (hparas : paragraphsOf text = [p1, p2])
    (h1 : p1.length ≤ 4000) (h2 : p2.length ≤ 4000) :
    (translateText identityProvider text target 3 true).1
      = p1 ++ '\n' :: '\n' :: p2 := by
  have hge : 2 ≤ (paragraphsOf text).length := by rw [hparas]; rfl
  have hm1 : p1 ∈ paragraphsOf text := by
    rw [hparas]; exact List.mem_cons_self _ _
  have hm2 : p2 ∈ paragraphsOf text := by
    rw [hparas]; exact List.mem_cons_of_mem _ (List.mem_cons_self _ _)
  rw [translateText_multi_par identityProvider text target 3 hge]
  simp only [hparas, List.map_cons, List.map_nil]
  rw [translatePara_id hm1 h1 target, translatePara_id hm2 h2 target]
  show joinSep ['\n', '\n'] [p1, p2] = p1 ++ '\n' :: '\n' :: p2
  rw [joinSep, joinSep]
  simp

/-- C9 (witness): `"A.\n\nB."` with the identity provider yields
`"A.\n\nB."` exactly. -/
theorem c9_paragraph_roundtrip_witness :
    (translateText identityProvider "A.\n\nB.".data "es" 3 true).1
      = "A.".data ++ '\n' :: '\n' :: "B.".data :=
  c9_paragraph_roundtrip "A.\n\nB.".data "A.".data "B.".data "es"
    (by decide) (by decide) (by decide)

/-- The over-long first sentence of the C9 counterexample. -/
def sent1 : List Char :=
  List.replicate 4000 'a' ++ ['.']

/-- The over-long first paragraph: 4000 `a`s, a period, two spaces, `E`. -/
def bigPara : List Char :=
  List.replicate 4000 'a' ++ ['.', ' ', ' ', 'E']

/-- The two-paragraph text of the C9 counterexample. -/
def bigText : List Char :=
  bigPara ++ '\n' :: '\n' :: 'B' :: '.' :: []

theorem sent1_length : sent1.length = 4001 := by
  rw [sent1, List.length_append, List.length_replicate]
  decide

theorem bigPara_length : bigPara.length = 4004 := by
  rw [bigPara, List.length_append, List.length_replicate]
  decide

theorem sent1_shape : sent1 = 'a' :: (List.replicate 3999 'a' ++ ['.']) := by
  rw [sent1, List.replicate_succ, List.cons_append]

theorem pyStrip_sent1 : pyStrip sent1 = sent1 := by
  rw [sent1_shape, pyStrip_cons_append _ _ _ (by decide) (by decide)]

theorem sent1_ne_nil : sent1 ≠ [] := by
  rw [sent1_shape]
  exact List.cons_ne_nil _ _

theorem bigPara_shape :
    bigPara = 'a' :: ((List.replicate 3999 'a' ++ ['.', ' ', ' ']) ++ ['E']) := by
  rw [bigPara, List.replicate_succ, List.cons_append]
  simp only [List.append_assoc, List.cons_append, List.nil_append]

theorem pyStrip_bigPara : pyStrip bigPara = bigPara := by
  rw [bigPara_shape, pyStrip_cons_append _ _ _ (by decide) (by decide)]

theorem bigPara_ne_nil : bigPara ≠ [] := by
  rw [bigPara_shape]
  exact List.cons_ne_nil _ _

theorem splitSentGo_bigTail :
    ∀ A : List Char, splitSentGo ['.', ' ', ' ', 'E'] false A
      = [A.reverse ++ ['.'], ['E']] := by
  intro A
  rw [splitSentGo, if_neg (by decide), if_pos (by decide)]
  rw [splitSentGo, if_pos (by decide)]
  rw [splitSentGo, if_pos (by decide)]
  rw [splitSentGo, if_neg (by decide), if_neg (by decide)]
  rw [splitSentGo]
  simp

theorem splitSentences_bigPara : splitSentences bigPara = [sent1, ['E']] := by
  have hnb : ∀ c ∈ List.replicate 4000 'a', sentEnd c = false := fun c hc => by
    rw [List.eq_of_mem_replicate hc]
    decide
  rw [splitSentences, bigPara,
    splitSentGo_no_boundary (List.replicate 4000 'a') [] _ hnb,
    splitSentGo_bigTail, sent1, List.append_nil, List.reverse_reverse]

theorem buildChunks_big : buildChunks [sent1, ['E']] = [sent1, ['E']] := by
  rw [buildChunks, buildChunksAux, if_neg (by simp)]
  rw [buildChunksAux, if_pos ⟨by rw [sent1_length]; omega, by simp⟩]
  rw [buildChunksAux, if_neg (by simp)]
  simp [joinSpace, joinSep]

theorem translateChunks_big :
    translateChunks identityProvider [sent1, ['E']]
      = (some [sent1, ['E']], [sent1, ['E']]) := by
  rw [translateChunks, if_neg (by rw [pyStrip_sent1]; exact sent1_ne_nil)]
  have h2 : translateChunks identityProvider [['E']] = (some [['E']], [['E']]) := by
    decide
  simp only [identityProvider, h2]

theorem attemptTranslate_bigPara :
    attemptTranslate identityProvider bigPara
      = (some (sent1 ++ [' ', 'E']), [sent1, ['E']]) := by
  rw [attemptTranslate, if_pos (by rw [bigPara_length]; omega),
    splitSentences_bigPara, buildChunks_big, translateChunks_big]
  show (some (joinSpace [sent1, ['E']]), _) = _
  rw [show joinSpace [sent1, ['E']] = sent1 ++ [' '] ++ ['E'] from rfl,
    List.append_assoc]
  rfl

theorem translatePara_bigPara :
    (translatePara identityProvider "es" 3 bigPara).1 = sent1 ++ [' ', 'E'] := by
  have hdigit : pyIsDigit bigPara = false := by
    rw [pyIsDigit]
    have : bigPara.all (·.isDigit) = false := by
      rw [List.all_eq_false]
      exact ⟨'a', by rw [bigPara_shape]; exact List.mem_cons_self _ _, by decide⟩
    rw [this, Bool.and_false]
  rw [translatePara, if_neg (by
    rw [hdigit, bigPara_length]
    decide)]
  rw [translateNoPar, if_neg (by rw [pyStrip_bigPara]; exact bigPara_ne_nil),
    translateCore, retryLoop, attemptTranslate_bigPara]

theorem splitParasGo_no_nl :
    ∀ (l acc rest : List Char), (∀ c ∈ l, c ≠ '\n') →
      splitParasGo (l ++ rest) acc none = splitParasGo rest (l.reverse ++ acc) none := by
  intro l
  induction l with
  | nil => intro acc rest _; simp
  | cons c t ih =>
    intro acc rest h
    rw [List.cons_append, splitParasGo,
      if_neg (h c (List.mem_cons_self c t)),
      ih (c :: acc) rest (fun d hd => h d (List.mem_cons_of_mem c hd))]
    simp

theorem splitParasGo_bigTail :
    ∀ A : List Char, splitParasGo ('\n' :: '\n' :: 'B' :: '.' :: []) A none
      = [A.reverse, ['B', '.']] := by
  intro A
  rw [splitParasGo, if_pos rfl]
  rw [splitParasGo, if_pos (by decide)]
  rw [splitParasGo, if_neg (by decide), if_pos (by decide)]
  rw [splitParasGo, if_neg (by decide)]
  rw [splitParasGo]
  simp

theorem splitParagraphs_bigText :
    splitParagraphs bigText = [bigPara, ['B', '.']] := by
  have hnb : ∀ c ∈ bigPara, c ≠ '\n' := by
    intro c hc
    rw [bigPara] at hc
    rcases List.mem_append.mp hc with h | h
    · rw [List.eq_of_mem_replicate h]
      decide
    · fin_cases h <;> decide
  rw [splitParagraphs, bigText, splitParasGo_no_nl bigPara [] _ hnb,
    splitParasGo_bigTail]
  simp

theorem paragraphsOf_bigText :
    paragraphsOf bigText = [bigPara, ['B', '.']] := by
  rw [paragraphsOf, splitParagraphs_bigText]
  rw [List.map_cons, List.map_cons, List.map_nil, pyStrip_bigPara]
  rw [show pyStrip ['B', '.'] = ['B', '.'] from by decide]
  rw [List.filter_cons_of_pos (by simpa using bigPara_ne_nil),
    List.filter_cons_of_pos (by decide), List.filter_nil]

/-- C9 (counterexample): the two-paragraph text whose first paragraph has
4004 characters (4000 `a`s, then `".  E"`) and second paragraph `"B."` is
not reproduced by the identity-provider translation: the over-long first
paragraph is re-chunked at its sentence boundary and the two chunks are
re-joined with a single space, collapsing the original double space, so the
result differs from the original paragraphs joined by one blank line. -/
theorem c9_counterexample :
    paragraphsOf bigText = [bigPara, ['B', '.']] ∧
    (translateText identityProvider bigText "es" 3 true).1
      ≠ bigPara ++ '\n' :: '\n' :: 'B' :: '.' :: [] := by
  refine ⟨paragraphsOf_bigText, ?_⟩
  rw [translateText_multi_par identityProvider bigText "es" 3
    (by rw [paragraphsOf_bigText]; rfl)]
  simp only [paragraphsOf_bigText, List.map_cons, List.map_nil]
  rw [translatePara_bigPara]
  rw [show (translatePara identityProvider "es" 3 ['B', '.']).1 = ['B', '.'] from
    by decide]
  intro heq
  have hlen := congrArg List.length heq
  simp only [joinNl2, joinSep, List.length_append, List.length_cons,
    List.length_nil, sent1_length, bigPara_length] at hlen
  omega

/-! ## C10 -/

/-- The concatenated word sequences of a list of pieces. -/
def wordsOfPieces (L : List (List Char)) : List (List Char) :=
  (L.map pyWords).flatten

/-- The word sequence held by a packing state: words of the finished lines,
then words of the open line's pieces. -/
def stWords (st : PackSt) : List (List Char) :=
  wordsOfPieces st.lines ++ wordsOfPieces st.cur

theorem wordsOfPieces_nil : wordsOfPieces [] = [] := rfl

theorem wordsOfPieces_append (a b : List (List Char)) :
    wordsOfPieces (a ++ b) = wordsOfPieces a ++ wordsOfPieces b := by
  rw [wordsOfPieces, List.map_append, List.flatten_append]
  rfl

theorem wordsOfPieces_singleton (p : List Char) :
    wordsOfPieces [p] = pyWords p := by
  rw [wordsOfPieces]
  simp

theorem wordsAux_space_split {s : Char} (hs : isSpace s = true) :
    ∀ (x y acc : List Char),
      wordsAux (x ++ s :: y) acc = wordsAux x acc ++ wordsAux y [] := by
  intro x
  induction x with
  | nil =>
    intro y acc
    rw [List.nil_append]
    rw [show wordsAux (s :: y) acc
        = if isSpace s = true then
            (if acc.isEmpty = true then wordsAux y [] else acc.reverse :: wordsAux y [])
          else wordsAux y (s :: acc) from rfl]
    rw [if_pos hs]
    rw [show wordsAux ([] : List Char) acc
        = if acc.isEmpty = true then [] else [acc.reverse] from rfl]
    by_cases hacc : acc.isEmpty = true
    · rw [if_pos hacc, if_pos hacc, List.nil_append]
    · rw [if_neg hacc, if_neg hacc, List.cons_append, List.nil_append]
  | cons c t ih =>
    intro y acc
    rw [List.cons_append, wordsAux, wordsAux]
    by_cases hc : isSpace c = true
    · rw [if_pos hc, if_pos hc]
      by_cases hacc : acc.isEmpty = true
      · rw [if_pos hacc, if_pos hacc, ih]
      · rw [if_neg hacc, if_neg hacc, ih, List.cons_append]
    · rw [if_neg hc, if_neg hc, ih]

theorem pyWords_space_split {s : Char} (hs : isSpace s = true) (x y : List Char) :
    pyWords (x ++ s :: y) = pyWords x ++ pyWords y :=
  wordsAux_space_split hs x y []

theorem pyWords_cons_space {c : Char} (hc : isSpace c = true) (l : List Char) :
    pyWords (c :: l) = pyWords l := by
  rw [pyWords, wordsAux, if_pos hc]
  rfl

theorem pyWords_joinSpace :
    ∀ L : List (List Char), pyWords (joinSpace L) = wordsOfPieces L := by
  intro L
  induction L with
  | nil => rfl
  | cons p rest ih =>
    cases rest with
    | nil =>
      rw [wordsOfPieces_singleton]
      rfl
    | cons q t =>
      have h1 : joinSpace (p :: q :: t) = p ++ ' ' :: joinSpace (q :: t) := by
        show (p ++ [' ']) ++ joinSpace (q :: t) = p ++ ' ' :: joinSpace (q :: t)
        rw [List.append_assoc]
        rfl
      rw [h1, pyWords_space_split (by decide) p (joinSpace (q :: t)), ih,
        show (p :: q :: t) = [p] ++ (q :: t) from rfl, wordsOfPieces_append,
        wordsOfPieces_singleton]

theorem wordsAux_all_nonspace :
    ∀ (l acc : List Char), (∀ c ∈ l, isSpace c = false) →
      (l ≠ [] ∨ acc ≠ []) → wordsAux l acc = [acc.reverse ++ l] := by
  intro l
  induction l with
  | nil =>
    intro acc _ hne
    rcases hne with hne | hne
    · exact absurd rfl hne
    · rw [wordsAux, if_neg (by simpa using hne)]
      simp
  | cons c t ih =>
    intro acc hl _
    rw [wordsAux, if_neg (by simp [hl c (List.mem_cons_self c t)]),
      ih (c :: acc) (fun d hd => hl d (List.mem_cons_of_mem c hd))
        (Or.inr (List.cons_ne_nil c acc))]
    simp

theorem wordsAux_words_nonspace :
    ∀ (l acc : List Char), (∀ c ∈ acc, isSpace c = false) →
      ∀ w ∈ wordsAux l acc, w ≠ [] ∧ ∀ c ∈ w, isSpace c = false := by
  intro l
  induction l with
  | nil =>
    intro acc hacc w hw
    rw [wordsAux] at hw
    split at hw
    · exact absurd hw (List.not_mem_nil w)
    · rename_i hne
      rw [List.mem_singleton] at hw
      subst hw
      refine ⟨by simpa using hne, fun c hc => hacc c (List.mem_reverse.mp hc)⟩
  | cons c t ih =>
    intro acc hacc w hw
    rw [wordsAux] at hw
    split at hw
    · rename_i hc
      split at hw
      · exact ih [] (by simp) w hw
      · rename_i hne
        rcases List.mem_cons.mp hw with rfl | hw2
        · exact ⟨by simpa using hne, fun d hd => hacc d (List.mem_reverse.mp hd)⟩
        · exact ih [] (by simp) w hw2
    · rename_i hc
      refine ih (c :: acc) ?_ w hw
      intro d hd
      rcases List.mem_cons.mp hd with rfl | hd2
      · exact Bool.eq_false_iff.mpr hc
      · exact hacc d hd2

theorem pyWords_of_word {w : List Char} (hne : w ≠ [])
    (hns : ∀ c ∈ w, isSpace c = false) : pyWords w = [w] := by
  rw [pyWords, wordsAux_all_nonspace w [] hns (Or.inl hne)]
  rfl

theorem wordsOfPieces_of_words :
    ∀ L : List (List Char), (∀ w ∈ L, pyWords w = [w]) → wordsOfPieces L = L := by
  intro L
  induction L with
  | nil => intro _; rfl
  | cons w rest ih =>
    intro h
    rw [show w :: rest = [w] ++ rest from rfl, wordsOfPieces_append,
      wordsOfPieces_singleton, h w (List.mem_cons_self w rest),
      ih (fun v hv => h v (List.mem_cons_of_mem w hv))]

theorem wordsOfPieces_pyWords (s : List Char) :
    wordsOfPieces (pyWords s) = pyWords s :=
  wordsOfPieces_of_words _ (fun w hw =>
    pyWords_of_word (wordsAux_words_nonspace s [] (by simp) w hw).1
      (wordsAux_words_nonspace s [] (by simp) w hw).2)

theorem splitSentGo_words :
    ∀ (l : List Char) (sk : Bool) (acc : List Char), (sk = true → acc = []) →
      wordsOfPieces (splitSentGo l sk acc) = pyWords (acc.reverse ++ l) := by
  intro l
  induction l with
  | nil =>
    intro sk acc _
    rw [splitSentGo, wordsOfPieces_singleton, List.append_nil]
  | cons c rest ih =>
    intro sk acc hinv
    rw [splitSentGo]
    by_cases h1 : (sk && isSpace c) = true
    · rw [if_pos h1, ih true [] (fun _ => rfl)]
      rw [hinv (Bool.and_elim_left h1), List.reverse_nil, List.nil_append,
        List.nil_append, pyWords_cons_space (Bool.and_elim_right h1)]
    · rw [if_neg (by simp [h1])]
      by_cases h2 : (sentEnd c && headIsSpace rest) = true
      · rw [if_pos h2]
        cases rest with
        | nil =>
          have := Bool.and_elim_right h2
          rw [headIsSpace] at this
          exact absurd this (by simp)
        | cons r0 rest1 =>
          have hr0 : isSpace r0 = true := by
            have := Bool.and_elim_right h2
            rwa [headIsSpace] at this
          rw [show (acc.reverse ++ [c]) :: splitSentGo (r0 :: rest1) true []
              = [acc.reverse ++ [c]] ++ splitSentGo (r0 :: rest1) true [] from rfl,
            wordsOfPieces_append, wordsOfPieces_singleton,
            ih true [] (fun _ => rfl), List.reverse_nil, List.nil_append,
            pyWords_cons_space hr0]
          rw [show acc.reverse ++ c :: r0 :: rest1
              = (acc.reverse ++ [c]) ++ r0 :: rest1 from by simp,
            pyWords_space_split hr0]
      · rw [if_neg (by simp [h2]), ih false (c :: acc) (by simp)]
        congr 1
        simp

theorem stWords_packPiece (cpl : ℤ) (st : PackSt) (p : List Char) :
    stWords (packPiece cpl st p) = stWords st ++ pyWords p := by
  rw [packPiece]
  split
  · rw [stWords, stWords]
    simp only
    rw [wordsOfPieces_append, wordsOfPieces_singleton, List.append_assoc]
  · rw [stWords, stWords]
    simp only
    split
    · rename_i hcur
      rw [hcur, wordsOfPieces_singleton, wordsOfPieces_nil, List.append_nil]
    · rw [wordsOfPieces_append, wordsOfPieces_singleton, pyWords_joinSpace,
        wordsOfPieces_singleton, List.append_assoc]

theorem stWords_packWords (cpl : ℤ) :
    ∀ (ws : List (List Char)) (st : PackSt),
      stWords (packWords cpl st ws) = stWords st ++ wordsOfPieces ws := by
  intro ws
  induction ws with
  | nil =>
    intro st
    rw [packWords, List.foldl_nil, wordsOfPieces_nil, List.append_nil]
  | cons w rest ih =>
    intro st
    rw [packWords, List.foldl_cons, show w :: rest = [w] ++ rest from rfl,
      wordsOfPieces_append, wordsOfPieces_singleton]
    have := ih (packPiece cpl st w)
    rw [packWords] at this
    rw [this, stWords_packPiece, List.append_assoc]

theorem stWords_packSents (cpl : ℤ) :
    ∀ (sents : List (List Char)) (st : PackSt),
      stWords (packSents cpl st sents) = stWords st ++ wordsOfPieces sents := by
  intro sents
  induction sents with
  | nil =>
    intro st
    rw [packSents, wordsOfPieces_nil, List.append_nil]
  | cons s rest ih =>
    intro st
    rw [packSents, show s :: rest = [s] ++ rest from rfl, wordsOfPieces_append,
      wordsOfPieces_singleton]
    split
    · rw [ih, stWords_packPiece, List.append_assoc]
    · rw [ih, stWords_packWords, wordsOfPieces_pyWords, List.append_assoc]

theorem wordsOfPieces_packFinish (st : PackSt) :
    wordsOfPieces (packFinish st) = stWords st := by
  rw [packFinish, stWords]
  split
  · rename_i hcur
    rw [hcur, wordsOfPieces_nil, List.append_nil]
  · rw [wordsOfPieces_append, wordsOfPieces_singleton, pyWords_joinSpace]

/-- C10: line wrapping preserves the whitespace-delimited word sequence:
for every text, nonnegative font size and nonnegative maximum width, the
words of the space-joined lines returned by `calculate_text_wrap` are exactly
the words of the input text — nothing is dropped, duplicated or reordered. -/
theorem c10_wrap_preserves_words (text : List Char) (fontSize maxWidth : ℚ)
    (hfs : 0 ≤ fontSize) (hmw : 0 ≤ maxWidth) :
    pyWords (joinSpace (calculateTextWrap text fontSize maxWidth))
      = pyWords text := by
  rw [calculateTextWrap]
  split
  · rfl
  · rw [pyWords_joinSpace, wordsOfPieces_packFinish, stWords_packSents]
    rw [show stWords ⟨[], [], 0⟩ = [] from rfl, List.nil_append]
    rw [splitSentences, splitSentGo_words text false [] (by simp),
      List.reverse_nil, List.nil_append]

/-- C10 (witness): wrapping `"one two. three"` at font size 10 in a
60-unit-wide box preserves its words. -/
theorem c10_wrap_preserves_words_witness :
    pyWords (joinSpace (calculateTextWrap "one two. three".data 10 60))
      = pyWords "one two. three".data :=
  c10_wrap_preserves_words "one two. three".data 10 60
    (by norm_num) (by norm_num)
